import Mathlib

/-!
Verification of the fusefs path-indexed node cache
(`usr/src/uts/common/fs/fusefs/fusefs_node.c`).

Paths (`n_rpath`, `n_rplen`) are embedded as `List Nat` of byte values;
the list length plays the role of `n_rplen`.  The per-mount AVL tree is
embedded as a list of nodes sorted by the source comparator, the
process-wide freelist as a list of nodes in ring order (head first);
the pointer-level doubly-linked ring structure of the freelist is
modelled separately (`FreeState`) and related to that ring order.
-/

namespace Fusefs

/-!  ## The path comparator (`fusefs_node_cmp`)  -/

/--
C `strncmp(a, b, n)` restricted to its sign: compares at most `n` bytes,
stopping early when the bytes differ or when a common NUL byte is hit.
Reading past the end of a list yields the terminating NUL of the stored
string (`new_rpath[rplen] = '\0'`).
-/
def cStrncmp : List Nat → List Nat → Nat → Int
  | _, _, 0 => 0
  | [], [], _ + 1 => 0
  | [], b :: _, _ + 1 => if b = 0 then 0 else -1
  | a :: _, [], _ + 1 => if a = 0 then 0 else 1
  | a :: as, b :: bs, n + 1 =>
    if a < b then -1
    else if b < a then 1
    else if a = 0 then 0
    else cStrncmp as bs n

/--
`fusefs_node_cmp`: the AVL comparator.  `clen` is the length of the
shorter key; the byte comparison is `strncmp` over `clen` bytes and the
shorter key wins a tie ("they match through clen").
-/
def fusefs_node_cmp (a b : List Nat) : Int :=
  let clen := min a.length b.length
  let diff := cStrncmp a b clen
  if diff < 0 then -1
  else if 0 < diff then 1
  else if clen < b.length then -1
  else if clen < a.length then 1
  else 0

/--
The spec's byte comparison: `memcmp` over `min(a.len, b.len)` bytes
(sign only).  `memcmp` does not stop at NUL bytes.  Exhausting either
list means the `min`-byte window is exhausted.
-/
def memcmpMin : List Nat → List Nat → Int
  | [], _ => 0
  | _, [] => 0
  | a :: as, b :: bs =>
    if a < b then -1
    else if b < a then 1
    else memcmpMin as bs

/--
The comparator as the spec words it: lexicographic `memcmp` over
`min(a.len, b.len)` bytes; on a tie over those bytes, the shorter
length is less.
-/
def spec_node_cmp (a b : List Nat) : Int :=
  let d := memcmpMin a b
  if d < 0 then -1
  else if 0 < d then 1
  else if a.length < b.length then -1
  else if b.length < a.length then 1
  else 0

/-- Plain recursive three-way lexicographic comparison on byte lists. -/
def lexCmp : List Nat → List Nat → Int
  | [], [] => 0
  | [], _ :: _ => -1
  | _ :: _, [] => 1
  | a :: as, b :: bs =>
    if a < b then -1
    else if b < a then 1
    else lexCmp as bs

theorem spec_node_cmp_eq_lexCmp (a b : List Nat) : spec_node_cmp a b = lexCmp a b := by
  induction a generalizing b with
  | nil =>
    cases b with
    | nil => rfl
    | cons b bs => simp [spec_node_cmp, memcmpMin, lexCmp]
  | cons a as ih =>
    cases b with
    | nil => simp [spec_node_cmp, memcmpMin, lexCmp]
    | cons b bs =>
      by_cases hab : a < b
      · simp [spec_node_cmp, memcmpMin, lexCmp, hab]
      · by_cases hba : b < a
        · simp [spec_node_cmp, memcmpMin, lexCmp, hab, hba]
        · have := ih bs
          simp only [spec_node_cmp] at this ⊢
          simp [memcmpMin, lexCmp, hab, hba, this]

theorem lexCmp_eq_zero_iff (a b : List Nat) : lexCmp a b = 0 ↔ a = b := by
  induction a generalizing b with
  | nil => cases b <;> simp [lexCmp]
  | cons a as ih =>
    cases b with
    | nil => simp [lexCmp]
    | cons b bs =>
      by_cases hab : a < b
      · simp [lexCmp, hab]
        omega
      · by_cases hba : b < a
        · simp [lexCmp, hab, hba]
          omega
        · have hEq : a = b := by omega
          simp [lexCmp, hab, hba, hEq, ih bs]

theorem lexCmp_neg (a b : List Nat) : lexCmp b a = -lexCmp a b := by
  induction a generalizing b with
  | nil => cases b <;> simp [lexCmp]
  | cons a as ih =>
    cases b with
    | nil => simp [lexCmp]
    | cons b bs =>
      by_cases hab : a < b
      · have : ¬ b < a := by omega
        simp [lexCmp, hab, this]
      · by_cases hba : b < a
        · simp [lexCmp, hab, hba]
        · simp [lexCmp, hab, hba, ih bs]

/--
On NUL-free keys the kernel comparator agrees with plain lexicographic
comparison (`strncmp` never hits a NUL early, so it is `memcmp`).
-/
theorem node_cmp_eq_lexCmp (a b : List Nat) (ha : 0 ∉ a) (hb : 0 ∉ b) :
    fusefs_node_cmp a b = lexCmp a b := by
  induction a generalizing b with
  | nil =>
    cases b with
    | nil => rfl
    | cons b bs => simp [fusefs_node_cmp, cStrncmp, lexCmp]
  | cons a as ih =>
    cases b with
    | nil => simp [fusefs_node_cmp, cStrncmp, lexCmp]
    | cons b bs =>
      have ha0 : a ≠ 0 := fun h => ha (h ▸ List.mem_cons_self a as)
      have has : 0 ∉ as := fun h => ha (List.mem_cons_of_mem a h)
      have hbs : 0 ∉ bs := fun h => hb (List.mem_cons_of_mem b h)
      have hmin : (as.length + 1) ⊓ (bs.length + 1) = as.length ⊓ bs.length + 1 :=
        Nat.succ_min_succ _ _
      simp only [fusefs_node_cmp, List.length_cons, hmin, cStrncmp, lexCmp]
      by_cases hab : a < b
      · simp [hab]
      · by_cases hba : b < a
        · simp [hab, hba]
        · have hrec := ih bs has hbs
          simp only [if_neg hab, if_neg hba, if_neg ha0, Nat.add_lt_add_iff_right]
          simpa [fusefs_node_cmp] using hrec

theorem node_cmp_eq_spec_cmp (a b : List Nat) (ha : 0 ∉ a) (hb : 0 ∉ b) :
    fusefs_node_cmp a b = spec_node_cmp a b := by
  rw [node_cmp_eq_lexCmp a b ha hb, spec_node_cmp_eq_lexCmp]

/--
C1 — corrected.  The comparator is implemented with `strncmp`, which
stops at the first NUL byte; hence the claimed `memcmp` semantics holds
on keys that contain no NUL byte.  On such keys the comparator equals
the spec comparator (lexicographic `memcmp` over `min(a.len, b.len)`
bytes, with the shorter key less on a tie) and returns 0 exactly when
both length and all bytes agree.
-/
theorem node_cmp_matches_spec_on_nul_free (a b : List Nat) (ha : 0 ∉ a) (hb : 0 ∉ b) :
    fusefs_node_cmp a b = spec_node_cmp a b ∧ (fusefs_node_cmp a b = 0 ↔ a = b) := by
  refine ⟨node_cmp_eq_spec_cmp a b ha hb, ?_⟩
  rw [node_cmp_eq_lexCmp a b ha hb]
  exact lexCmp_eq_zero_iff a b

/-- Witness for C1's amended theorem at concrete NUL-free keys. -/
theorem node_cmp_matches_spec_witness :
    (0 : Nat) ∉ [102, 111, 111] ∧ (0 : Nat) ∉ [102, 111] ∧
      (fusefs_node_cmp [102, 111, 111] [102, 111] = spec_node_cmp [102, 111, 111] [102, 111] ∧
        (fusefs_node_cmp [102, 111, 111] [102, 111] = 0 ↔ [102, 111, 111] = [102, 111])) :=
  ⟨by decide, by decide,
    node_cmp_matches_spec_on_nul_free [102, 111, 111] [102, 111] (by decide) (by decide)⟩

/--
C1 — counterexample to the claim as stated.  With embedded NUL bytes
the comparator does not order keys as `memcmp` would: the keys
`[0, 1]` and `[0, 2]` differ, `memcmp` over 2 bytes orders the first
below the second, yet `fusefs_node_cmp` reports them equal because
`strncmp` stops at the shared leading NUL.
-/
theorem node_cmp_nul_counterexample :
    fusefs_node_cmp [0, 1] [0, 2] = 0 ∧ [0, 1] ≠ [0, 2] ∧
      spec_node_cmp [0, 1] [0, 2] = -1 := by decide

/-!  ## Subtree invalidation walk (`fusefs_attrcache_prune`)

The walk visits the in-order successors of `top_np` and collects the
nodes passed to the external `fusefs_attrcache_remove`.  The embedding
takes the successor list (the index entries strictly after `top` in AVL
order) and returns, in walk order, the paths on which the removal
callback fires.  -/

/--
`fusefs_attrcache_prune` loop body: break when the successor is shorter
than `top`'s path or no longer carries it as an `strncmp` prefix;
invoke `fusefs_attrcache_remove` when a separator byte (`':'` = 58 or
`'/'` = 47) follows the prefix.
-/
def fusefs_attrcache_prune (rpath : List Nat) : List (List Nat) → List (List Nat)
  | [] => []
  | p :: rest =>
    if p.length < rpath.length then []
    else if cStrncmp p rpath rpath.length ≠ 0 then []
    else if rpath.length < p.length ∧ (p.getD rpath.length 0 = 58 ∨ p.getD rpath.length 0 = 47) then
      p :: fusefs_attrcache_prune rpath rest
    else fusefs_attrcache_prune rpath rest

/-- Decidable test for "`p` is `t` followed by a separator and a suffix". -/
def isDescB (t p : List Nat) : Bool :=
  decide (t.length < p.length) && decide (p.take t.length = t) &&
    (decide (p.getD t.length 0 = 58) || decide (p.getD t.length 0 = 47))

theorem isDescB_iff (t p : List Nat) :
    isDescB t p = true ↔ ∃ s, p = t ++ 47 :: s ∨ p = t ++ 58 :: s := by
  constructor
  · intro h
    simp only [isDescB, Bool.and_eq_true, Bool.or_eq_true, decide_eq_true_eq] at h
    obtain ⟨⟨hlen, htake⟩, hsep⟩ := h
    have hdrop : p.drop t.length = p[t.length] :: p.drop (t.length + 1) :=
      List.drop_eq_getElem_cons hlen
    have hget : p.getD t.length 0 = p[t.length] := List.getD_eq_getElem p 0 hlen
    have hsplit : p = t ++ p[t.length] :: p.drop (t.length + 1) := by
      conv_lhs => rw [← List.take_append_drop t.length p]
      rw [htake, hdrop]
    rcases hsep with h58 | h47
    · have hb : p[t.length] = 58 := by rw [← hget]; exact h58
      exact ⟨p.drop (t.length + 1), Or.inr (by conv_lhs => rw [hsplit, hb])⟩
    · have hb : p[t.length] = 47 := by rw [← hget]; exact h47
      exact ⟨p.drop (t.length + 1), Or.inl (by conv_lhs => rw [hsplit, hb])⟩
  · rintro ⟨s, h | h⟩ <;> subst h <;>
      (simp only [isDescB, Bool.and_eq_true, Bool.or_eq_true, decide_eq_true_eq]
       refine ⟨⟨by simp, List.take_left' rfl⟩, ?_⟩
       rw [List.getD_append_right t _ 0 t.length le_rfl]
       simp)

theorem lexCmp_self (a : List Nat) : lexCmp a a = 0 := (lexCmp_eq_zero_iff a a).mpr rfl

/-- On NUL-free inputs `strncmp` over `n` bytes is lexicographic comparison
of the length-`n` truncations. -/
theorem cStrncmp_eq_lexCmp_take (a b : List Nat) (n : Nat) (ha : 0 ∉ a) (hb : 0 ∉ b) :
    cStrncmp a b n = lexCmp (a.take n) (b.take n) := by
  induction n generalizing a b with
  | zero => simp [cStrncmp, lexCmp]
  | succ n ih =>
    cases a with
    | nil =>
      cases b with
      | nil => simp [cStrncmp, lexCmp]
      | cons b bs =>
        have hb0 : b ≠ 0 := fun h => hb (h ▸ List.mem_cons_self b bs)
        simp [cStrncmp, lexCmp, hb0]
    | cons a as =>
      have ha0 : a ≠ 0 := fun h => ha (h ▸ List.mem_cons_self a as)
      have has : 0 ∉ as := fun h => ha (List.mem_cons_of_mem a h)
      cases b with
      | nil => simp [cStrncmp, lexCmp, ha0]
      | cons b bs =>
        have hbs : 0 ∉ bs := fun h => hb (List.mem_cons_of_mem b h)
        by_cases hab : a < b
        · simp [cStrncmp, lexCmp, hab]
        · by_cases hba : b < a
          · simp [cStrncmp, lexCmp, hab, hba]
          · simp [cStrncmp, lexCmp, hab, hba, ha0, ih as bs has hbs]

/-- A proper extension of `t` past a separator sorts strictly after `t`. -/
theorem lexCmp_append_cons (t : List Nat) (c : Nat) (s : List Nat) :
    lexCmp t (t ++ c :: s) = -1 := by
  induction t with
  | nil => simp [lexCmp]
  | cons a ts ih => simpa [lexCmp] using ih

/--
Interval property of the lexicographic order: anything strictly between
`t` and an extension of `t` itself carries `t` as a prefix.  This is why
the prune walk may stop at the first non-prefix successor.
-/
theorem lexCmp_between_pref (t m d : List Nat)
    (htm : lexCmp t m = -1) (hmd : lexCmp m d = -1)
    (hd : d.take t.length = t) :
    m.take t.length = t ∧ t.length ≤ m.length := by
  induction t generalizing m d with
  | nil => simp
  | cons c ts ih =>
    cases d with
    | nil =>
      exfalso
      have := congrArg List.length hd
      simp at this
    | cons d0 ds =>
      simp only [List.length_cons, List.take_succ_cons, List.cons.injEq] at hd
      obtain ⟨hd0, hds⟩ := hd
      subst hd0
      cases m with
      | nil => simp [lexCmp] at htm
      | cons m0 ms =>
        by_cases h1 : d0 < m0
        · exfalso
          have hnm : ¬ m0 < d0 := by omega
          simp [lexCmp, hnm, h1] at hmd
        · by_cases h2 : m0 < d0
          · exfalso
            simp [lexCmp, h1, h2] at htm
          · have hc : m0 = d0 := by omega
            subst hc
            simp only [lexCmp, lt_irrefl, if_neg (lt_irrefl _)] at htm hmd
            obtain ⟨h1', h2'⟩ := ih ms ds htm hmd hds
            simp [List.take_succ_cons, h1', Nat.succ_le_succ h2']

/--
On a lexicographically sorted successor list whose members all sort
after `t` (and contain no NUL byte), the prune walk fires the removal
callback exactly on the separator-extensions of `t`.
-/
theorem prune_eq_filter (t : List Nat) (l : List (List Nat))
    (hnt : 0 ∉ t)
    (hnl : ∀ q ∈ l, 0 ∉ q)
    (hgt : ∀ q ∈ l, lexCmp t q = -1)
    (hsort : l.Pairwise (fun p q => lexCmp p q = -1)) :
    fusefs_attrcache_prune t l = l.filter (isDescB t) := by
  induction l with
  | nil => rfl
  | cons p rest ih =>
    have hnp : 0 ∉ p := hnl p (List.mem_cons_self p rest)
    have hnrest : ∀ q ∈ rest, 0 ∉ q := fun q hq => hnl q (List.mem_cons_of_mem p hq)
    have hgtp : lexCmp t p = -1 := hgt p (List.mem_cons_self p rest)
    have hgtrest : ∀ q ∈ rest, lexCmp t q = -1 := fun q hq => hgt q (List.mem_cons_of_mem p hq)
    rw [List.pairwise_cons] at hsort
    obtain ⟨hsp, hsrest⟩ := hsort
    -- descendants further down the list force the prefix onto `p`
    have hblock : ∀ r ∈ rest, isDescB t r = true → p.take t.length = t ∧ t.length ≤ p.length := by
      intro r hr hdesc
      simp only [isDescB, Bool.and_eq_true, decide_eq_true_eq] at hdesc
      exact lexCmp_between_pref t p r hgtp (hsp r hr) hdesc.1.2
    by_cases hlen : p.length < t.length
    · have hp : isDescB t p = false := by
        have hdec : decide (t.length < p.length) = false := by
          simp only [decide_eq_false_iff_not]
          omega
        simp [isDescB, hdec]
      have hrest0 : rest.filter (isDescB t) = [] := by
        rw [List.filter_eq_nil_iff]
        intro r hr hdesc
        have := (hblock r hr (by simpa using hdesc)).2
        omega
      simp [fusefs_attrcache_prune, hlen, hp, hrest0]
    · by_cases hpre : p.take t.length = t
      · -- prefix holds: the walk continues
        have hcs : cStrncmp p t t.length = 0 := by
          rw [cStrncmp_eq_lexCmp_take p t t.length hnp hnt, List.take_length t, hpre,
            lexCmp_self]
        have hcs' : ¬ cStrncmp p t t.length ≠ 0 := by simp [hcs]
        by_cases hsep : t.length < p.length ∧ (p.getD t.length 0 = 58 ∨ p.getD t.length 0 = 47)
        · have hp : isDescB t p = true := by
            simp only [isDescB, Bool.and_eq_true, Bool.or_eq_true, decide_eq_true_eq]
            exact ⟨⟨hsep.1, hpre⟩, hsep.2⟩
          simp only [fusefs_attrcache_prune]
          rw [if_neg hlen, if_neg hcs', if_pos hsep, List.filter_cons_of_pos (by simp [hp]),
            ih hnrest hgtrest hsrest]
        · have hp : isDescB t p = false := by
            rw [Bool.eq_false_iff]
            intro hcontra
            simp only [isDescB, Bool.and_eq_true, Bool.or_eq_true, decide_eq_true_eq] at hcontra
            exact hsep ⟨hcontra.1.1, hcontra.2⟩
          simp only [fusefs_attrcache_prune]
          rw [if_neg hlen, if_neg hcs', if_neg hsep, List.filter_cons_of_neg (by simp [hp]),
            ih hnrest hgtrest hsrest]
      · -- prefix broken: the walk stops and nothing below is a descendant
        have hcs : cStrncmp p t t.length ≠ 0 := by
          rw [cStrncmp_eq_lexCmp_take p t t.length hnp hnt, List.take_length t]
          intro h0
          exact hpre ((lexCmp_eq_zero_iff _ _).mp h0)
        have hp : isDescB t p = false := by
          have hdec : decide (p.take t.length = t) = false := by
            simp only [decide_eq_false_iff_not]
            exact hpre
          simp [isDescB, hdec]
        have hrest0 : rest.filter (isDescB t) = [] := by
          rw [List.filter_eq_nil_iff]
          intro r hr hdesc
          exact hpre (hblock r hr (by simpa using hdesc)).1
        simp [fusefs_attrcache_prune, hlen, hcs, hp, hrest0]

/--
C2 — confirmed (for NUL-free paths, as maintained by the cache: every
stored `n_rpath` is a NUL-terminated C string of `n_rplen` non-NUL
bytes).  With the mount index `before ++ top :: after` sorted by the
AVL comparator, the walk starting at `top` invokes
`fusefs_attrcache_remove` exactly once on each node whose path is
`top`'s path followed by `'/'` (47) or `':'` (58) and a suffix, and on
no other node — in particular not on `top` itself nor on nodes such as
`"foo bar"` that extend `top`'s path without a separator.
-/
theorem attrcache_prune_removes_descendants
    (before after : List (List Nat)) (top : List Nat)
    (hnul : ∀ p ∈ before ++ top :: after, 0 ∉ p)
    (hsort : (before ++ top :: after).Pairwise (fun p q => fusefs_node_cmp p q = -1)) :
    (∀ p, p ∈ fusefs_attrcache_prune top after ↔
        (p ∈ before ++ top :: after ∧ ∃ s, p = top ++ 47 :: s ∨ p = top ++ 58 :: s))
      ∧ (fusefs_attrcache_prune top after).Nodup := by
  have hlex : (before ++ top :: after).Pairwise (fun p q => lexCmp p q = -1) :=
    hsort.imp_of_mem (fun {a b} hma hmb h => by
      rwa [node_cmp_eq_lexCmp a b (hnul a hma) (hnul b hmb)] at h)
  rw [List.pairwise_append] at hlex
  obtain ⟨hbefore, hcons, hcross⟩ := hlex
  rw [List.pairwise_cons] at hcons
  obtain ⟨hta, hafter⟩ := hcons
  have hnt : 0 ∉ top := hnul top (by simp)
  have hna : ∀ q ∈ after, 0 ∉ q := fun q hq => hnul q (by simp [hq])
  have heq : fusefs_attrcache_prune top after = after.filter (isDescB top) :=
    prune_eq_filter top after hnt hna hta hafter
  constructor
  · intro p
    rw [heq, List.mem_filter, isDescB_iff]
    constructor
    · rintro ⟨hp, hdesc⟩
      exact ⟨by simp [hp], hdesc⟩
    · rintro ⟨hp, hdesc⟩
      refine ⟨?_, hdesc⟩
      obtain ⟨s, hs | hs⟩ := hdesc <;> (
        have hgt : lexCmp top p = -1 := by rw [hs]; exact lexCmp_append_cons _ _ _
        simp only [List.mem_append, List.mem_cons] at hp
        rcases hp with hb | hp0 | ha
        · exfalso
          have h1 : lexCmp p top = -1 := hcross p hb top (by simp)
          rw [lexCmp_neg, hgt] at h1
          exact absurd h1 (by decide)
        · exfalso
          subst hp0
          rw [lexCmp_self] at hgt
          exact absurd hgt (by decide)
        · exact ha)
  · rw [heq]
    have : after.Nodup := hafter.imp (fun {a b} h => by
      intro heq2
      subst heq2
      rw [lexCmp_self] at h
      exact absurd h (by decide))
    exact this.filter _

/-- Witness for C2 at the spec's "prune boundary" scenario: paths
"foo", "foo bar", "foo/bar", "foo/baz", "foo:stream", "fop". -/
theorem attrcache_prune_witness :
    (∀ p, p ∈ fusefs_attrcache_prune [102, 111, 111]
        [[102, 111, 111, 32, 98, 97, 114], [102, 111, 111, 47, 98, 97, 114],
          [102, 111, 111, 47, 98, 97, 122], [102, 111, 111, 58, 115], [102, 111, 112]] ↔
      (p ∈ [] ++ [102, 111, 111] ::
        [[102, 111, 111, 32, 98, 97, 114], [102, 111, 111, 47, 98, 97, 114],
          [102, 111, 111, 47, 98, 97, 122], [102, 111, 111, 58, 115], [102, 111, 112]] ∧
        ∃ s, p = [102, 111, 111] ++ 47 :: s ∨ p = [102, 111, 111] ++ 58 :: s))
    ∧ (fusefs_attrcache_prune [102, 111, 111]
        [[102, 111, 111, 32, 98, 97, 114], [102, 111, 111, 47, 98, 97, 114],
          [102, 111, 111, 47, 98, 97, 122], [102, 111, 111, 58, 115], [102, 111, 112]]).Nodup :=
  attrcache_prune_removes_descendants [] _ _ (by decide) (by decide)

/-!  ## The node model

One `fusenode_t` with the fields this spec's claims touch.  `nid`
stands for the node's address (its identity), `mnt` for the owning
mount (`n_mount`), `rpath` for `n_rpath`/`n_rplen`, `onFree` for
"`r_freef != NULL`" (freelist membership seen from the node),
`vcount` for `v_count` of the owned vnode, `rcount`/`rerror` for
`r_count`/`r_error`, `dirty` for `RDIRTY`, `hasPages` for
`vn_has_cached_data`, `xattr` for `N_XATTR`, `hasCred` for
`r_cred != NULL`.  `sepByte` carries the per-node separator consulted
by `FUSEFS_DNP_SEP`.  -/

structure Node where
  nid : Nat
  mnt : Nat
  rpath : List Nat
  ino : Nat
  hashed : Bool
  onFree : Bool
  vcount : Nat
  rcount : Nat
  rerror : Nat
  dirty : Bool
  hasPages : Bool
  xattr : Bool
  hasCred : Bool
  sepByte : Nat
deriving DecidableEq

/-- `sn_inactive`: take and release the cached credential and the
`n_rpath` storage, under `r_statelock`. -/
def sn_inactive (np : Node) : Node := { np with hasCred := false, rpath := [] }

/-- `avl_find` on the per-mount tree, by the path key.  In the sorted
list embedding this is the first (unique) node whose key compares
equal. -/
def avl_find (index : List Node) (rpath : List Nat) : Option Node :=
  index.find? (fun np => fusefs_node_cmp np.rpath rpath == 0)

/-- `sn_rmfree` seen from the ring order: drop the node from the
freelist sequence.  (The pointer surgery itself is verified separately
on `FreeState` below.) -/
def rmfree_seq (fl : List Node) (i : Nat) : List Node :=
  fl.eraseP (fun q => q.nid == i)

/--
`sn_hashfind`: point lookup.  On a hit, if the node is on the freelist
its freelist reference is transferred to the caller (`sn_rmfree`, no
`v_count` change); otherwise the vnode reference count is incremented
(`VN_HOLD`).  The double test of `r_freef` mirrors the re-check under
`fusefreelist_lock`; sequentially both reads agree.
-/
def sn_hashfind (index : List Node) (fl : List Node) (rpath : List Nat) :
    Option (Node × List Node) :=
  match avl_find index rpath with
  | none => none
  | some np =>
    if np.onFree then
      if np.onFree then some ({ np with onFree := false }, rmfree_seq fl np.nid)
      else some ({ np with vcount := np.vcount + 1 }, fl)
    else some ({ np with vcount := np.vcount + 1 }, fl)

/-- `avl_insert` at the position determined by the comparator. -/
def avl_insert (index : List Node) (np : Node) : List Node :=
  match index with
  | [] => [np]
  | q :: rest =>
    if fusefs_node_cmp np.rpath q.rpath = -1 then np :: q :: rest
    else q :: avl_insert rest np

/-- Outcome of one `fusefs_addfree` call: the node was destroyed
(`sn_destroy_node`), abandoned to a racing holder (`v_count--` and
return), or placed at the tail of the freelist. -/
inductive AddfreeResult where
  | destroyed (np : Node)
  | abandoned (np : Node)
  | freelisted (np : Node)
deriving DecidableEq

/--
`fusefs_addfree(np)`.  Inputs beyond the node: the freelist in ring
order, the global counters `fusenodenew` (allocated) and `nfusenode`
(target), and the owning vfs's `VFS_UNMOUNTED` flag.  Returns the
outcome together with the updated freelist and `fusenodenew`.
The source's separate `v_count` re-checks collapse to single tests of
the node's (unchanging, sequential) `vcount`.
-/
def fusefs_addfree (np : Node) (fl : List Node) (fusenodenew nfusenode : Nat)
    (unmounted : Bool) : AddfreeResult × List Node × Nat :=
  if np.rcount = 0 ∧
      (np.hashed = false ∨ np.rerror ≠ 0 ∨ unmounted = true ∨ nfusenode < fusenodenew) then
    -- try to destroy this node
    if np.hashed = true ∧ 1 < np.vcount then
      (AddfreeResult.abandoned { np with vcount := np.vcount - 1 }, fl, fusenodenew)
    else
      let np1 := if np.hashed then { np with hashed := false } else np
      let np2 := sn_inactive np1
      if 1 < np2.vcount then
        (AddfreeResult.abandoned { np2 with vcount := np2.vcount - 1 }, fl, fusenodenew)
      else
        (AddfreeResult.destroyed np2, fl, fusenodenew - 1)
  else
    -- put this node on the free list (tail insertion into the ring)
    if 1 < np.vcount then
      (AddfreeResult.abandoned { np with vcount := np.vcount - 1 }, fl, fusenodenew)
    else
      (AddfreeResult.freelisted np, fl ++ [np], fusenodenew)

/--
C4 — confirmed.  With the stated precondition (caller holds the single
outstanding vnode reference, `vcount = 1`), `fusefs_addfree` routes the
node to destruction exactly when `r_count = 0` and at least one of
not-`HASHED`, `r_error ≠ 0`, `VFS_UNMOUNTED`, or
`fusenodenew > nfusenode` holds; otherwise it is appended at the tail
of the freelist ring.
-/
theorem addfree_policy (np : Node) (fl : List Node) (fusenodenew nfusenode : Nat)
    (unmounted : Bool) (hv : np.vcount = 1) :
    ((∃ d, (fusefs_addfree np fl fusenodenew nfusenode unmounted).1 =
        AddfreeResult.destroyed d) ↔
      (np.rcount = 0 ∧
        (np.hashed = false ∨ np.rerror ≠ 0 ∨ unmounted = true ∨ nfusenode < fusenodenew)))
    ∧ (¬ (np.rcount = 0 ∧
          (np.hashed = false ∨ np.rerror ≠ 0 ∨ unmounted = true ∨ nfusenode < fusenodenew)) →
        fusefs_addfree np fl fusenodenew nfusenode unmounted =
          (AddfreeResult.freelisted np, fl ++ [np], fusenodenew)) := by
  have hnv : ¬ 1 < np.vcount := by omega
  by_cases hc : np.rcount = 0 ∧
      (np.hashed = false ∨ np.rerror ≠ 0 ∨ unmounted = true ∨ nfusenode < fusenodenew)
  · have h1 : ¬ (np.hashed = true ∧ 1 < np.vcount) := fun h => hnv h.2
    have h2 : ¬ 1 <
        (sn_inactive (if np.hashed then { np with hashed := false } else np)).vcount := by
      by_cases hh : np.hashed <;> simp [sn_inactive, hh, hv]
    constructor
    · constructor
      · intro _; exact hc
      · intro _
        exact ⟨sn_inactive (if np.hashed then { np with hashed := false } else np),
          by simp only [fusefs_addfree, if_pos hc, if_neg h1, if_neg h2]⟩
    · intro hnc; exact absurd hc hnc
  · constructor
    · constructor
      · intro hd
        obtain ⟨d, hd⟩ := hd
        exfalso
        simp only [fusefs_addfree, if_neg hc, if_neg hnv] at hd
        exact AddfreeResult.noConfusion hd
      · intro h; exact absurd h hc
    · intro _
      simp only [fusefs_addfree, if_neg hc, if_neg hnv]

/-- Witness for C4 at a concrete node eligible for pooling (hashed, no
error, not unmounted, allocation below target). -/
theorem addfree_policy_witness :
    (Node.mk 7 1 [97] 0 true false 1 0 0 false false false false 0).vcount = 1 ∧
    (¬ ((Node.mk 7 1 [97] 0 true false 1 0 0 false false false false 0).rcount = 0 ∧
        ((Node.mk 7 1 [97] 0 true false 1 0 0 false false false false 0).hashed = false ∨
          (Node.mk 7 1 [97] 0 true false 1 0 0 false false false false 0).rerror ≠ 0 ∨
          false = true ∨ 10 < 3)) →
      fusefs_addfree (Node.mk 7 1 [97] 0 true false 1 0 0 false false false false 0) [] 3 10 false =
        (AddfreeResult.freelisted (Node.mk 7 1 [97] 0 true false 1 0 0 false false false false 0),
          [] ++ [Node.mk 7 1 [97] 0 true false 1 0 0 false false false false 0], 3)) :=
  ⟨rfl, (addfree_policy (Node.mk 7 1 [97] 0 true false 1 0 0 false false false false 0)
    [] 3 10 false rfl).2⟩

/-!  ## Unmount busy check (`fusefs_check_table`)  -/

/-- The spec's notion of a busy node: not on the freelist, or holding
dirty cached pages, or `r_count > 0`. -/
def nodeBusy (np : Node) : Prop :=
  np.onFree = false ∨ (np.hasPages = true ∧ np.dirty = true) ∨ 0 < np.rcount

instance (np : Node) : Decidable (nodeBusy np) := by
  unfold nodeBusy
  infer_instance

/-- What one non-root node adds to `busycnt`: one per satisfied
busy criterion, as the three separate `busycnt++` sites do. -/
def busyScore (np : Node) : Nat :=
  (if np.onFree = false then 1 else 0) +
    (if np.hasPages = true ∧ np.dirty = true then 1 else 0) +
    (if 0 < np.rcount then 1 else 0)

/-- The `fusefs_check_table` walk: skip the root, accumulate the three
per-criterion increments, and break at the first busy node unless
`fusefs_check_table_debug` is set. -/
def check_loop (debugFlag : Bool) (rootId : Nat) : List Node → Nat → Nat
  | [], busycnt => busycnt
  | np :: rest, busycnt =>
    if np.nid = rootId then check_loop debugFlag rootId rest busycnt
    else
      let b := busycnt + busyScore np
      if b ≠ 0 ∧ debugFlag = false then b
      else check_loop debugFlag rootId rest b

/-- `fusefs_check_table(vfsp, rtnp)`; the root is identified by its
node identity `rootId`. -/
def fusefs_check_table (index : List Node) (rootId : Nat) (debugFlag : Bool) : Nat :=
  check_loop debugFlag rootId index 0

theorem busyScore_eq_zero_iff (np : Node) : busyScore np = 0 ↔ ¬ nodeBusy np := by
  unfold busyScore nodeBusy
  split_ifs <;> simp_all

theorem check_loop_le (debugFlag : Bool) (rootId : Nat) (l : List Node) (acc : Nat) :
    acc ≤ check_loop debugFlag rootId l acc := by
  induction l generalizing acc with
  | nil => simp [check_loop]
  | cons np rest ih =>
    by_cases hr : np.nid = rootId
    · simpa [check_loop, hr] using ih acc
    · simp only [check_loop, if_neg hr]
      by_cases hb : acc + busyScore np ≠ 0 ∧ debugFlag = false
      · simp only [if_pos hb]
        omega
      · simp only [if_neg hb]
        have := ih (acc + busyScore np)
        omega

/--
C7 — amended theorem.  `check_table` returns 0 exactly when no node of
the index other than the root is busy; in debug mode (no
short-circuit) it returns the sum over non-root nodes of the number of
satisfied busy criteria.
-/
theorem check_table_zero_iff (index : List Node) (rootId : Nat) (debugFlag : Bool) :
    (fusefs_check_table index rootId debugFlag = 0 ↔
      ∀ np ∈ index, np.nid ≠ rootId → ¬ nodeBusy np)
    ∧ fusefs_check_table index rootId true =
        ((index.filter (fun np => np.nid != rootId)).map busyScore).sum := by
  constructor
  · unfold fusefs_check_table
    induction index with
    | nil => simp [check_loop]
    | cons np rest ih =>
      by_cases hr : np.nid = rootId
      · simpa [check_loop, hr] using ih
      · simp only [check_loop, if_neg hr, Nat.zero_add]
        by_cases hbusy : nodeBusy np
        · have hs : busyScore np ≠ 0 := by
            rw [Ne, busyScore_eq_zero_iff]
            exact not_not_intro hbusy
          constructor
          · intro h0
            exfalso
            by_cases hd : debugFlag = false
            · rw [if_pos ⟨hs, hd⟩] at h0
              exact hs h0
            · rw [if_neg (fun hcon => hd hcon.2)] at h0
              have := check_loop_le debugFlag rootId rest (busyScore np)
              omega
          · intro hall
            exact absurd hbusy (hall np (List.mem_cons_self np rest) hr)
        · have hs : busyScore np = 0 := (busyScore_eq_zero_iff np).mpr hbusy
          rw [hs, if_neg (by simp)]
          rw [ih]
          constructor
          · intro hall q hq hqr
            rcases List.mem_cons.mp hq with rfl | hq'
            · exact hbusy
            · exact hall q hq' hqr
          · intro hall q hq hqr
            exact hall q (List.mem_cons_of_mem np hq) hqr
  · unfold fusefs_check_table
    have hgen : ∀ (l : List Node) (acc : Nat),
        check_loop true rootId l acc =
          acc + ((l.filter (fun np => np.nid != rootId)).map busyScore).sum := by
      intro l
      induction l with
      | nil => simp [check_loop]
      | cons np rest ih =>
        intro acc
        by_cases hr : np.nid = rootId
        · simp [check_loop, hr, ih]
        · rw [List.filter_cons_of_pos (by simp [hr]), List.map_cons, List.sum_cons]
          simp only [check_loop, if_neg hr]
          rw [if_neg (by simp), ih]
          omega
    simpa using hgen index 0

/--
C7 — counterexample to the claim as stated.  A single non-root busy
node that is simultaneously off the freelist, dirty with cached pages,
and referenced contributes three to the count (and the walk then
breaks): `check_table` returns 3, while the number of busy non-root
nodes is 1.
-/
theorem check_table_count_counterexample :
    fusefs_check_table
        [Node.mk 0 1 [] 0 true false 1 0 0 false false false false 0,
          Node.mk 5 1 [97] 0 true false 2 3 0 true true false false 0] 0 false = 3 ∧
      (([Node.mk 0 1 [] 0 true false 1 0 0 false false false false 0,
          Node.mk 5 1 [97] 0 true false 2 3 0 true true false false 0].filter
            (fun np => np.nid != 0 && decide (nodeBusy np))).length = 1) ∧
      (3 : Nat) ≠ 1 := by decide

/-!  ## Point lookup reference protocol (`sn_hashfind`)  -/

theorem map_nid_eraseP (fl : List Node) (i : Nat) :
    (rmfree_seq fl i).map Node.nid = (fl.map Node.nid).erase i := by
  induction fl with
  | nil => rfl
  | cons q rest ih =>
    simp only [rmfree_seq] at ih ⊢
    by_cases hq : q.nid = i
    · simp [List.eraseP_cons, hq, List.erase_cons]
    · simp [List.eraseP_cons, hq, List.erase_cons, ih]

/--
C6 — confirmed.  A successful `sn_hashfind` returns the (unique
comparator-equal) node with its freelist membership gone, and the
caller's reference is obtained in exactly one of two mutually exclusive
ways: if the node was on the freelist, `sn_rmfree` runs and `v_count`
is unchanged (the freelist reference transfers); otherwise `VN_HOLD`
increments `v_count` by exactly one and the freelist is untouched.
Hypotheses: freelist identities are distinct, and a node's `r_freef`
agrees with actual freelist membership.
-/
theorem hashfind_reference_transfer (index fl : List Node) (rpath : List Nat)
    (np' : Node) (fl' : List Node)
    (hids : (fl.map Node.nid).Nodup)
    (hmem : ∀ q ∈ index, (q.onFree = true ↔ q.nid ∈ fl.map Node.nid))
    (h : sn_hashfind index fl rpath = some (np', fl')) :
    np'.onFree = false ∧ np'.nid ∉ fl'.map Node.nid ∧
      ∃ np ∈ index, fusefs_node_cmp np.rpath rpath = 0 ∧
        ((np.onFree = true ∧ np' = { np with onFree := false } ∧
            fl' = rmfree_seq fl np.nid ∧ np'.vcount = np.vcount)
          ∨ (np.onFree = false ∧ np' = { np with vcount := np.vcount + 1 } ∧ fl' = fl)) := by
  unfold sn_hashfind at h
  cases hfind : avl_find index rpath with
  | none =>
    rw [hfind] at h
    exact absurd h (by simp)
  | some np =>
    rw [hfind] at h
    dsimp only at h
    have hnp : np ∈ index := List.mem_of_find?_eq_some hfind
    have hcmp : fusefs_node_cmp np.rpath rpath = 0 := by
      have := List.find?_some hfind
      simpa using this
    by_cases hf : np.onFree = true
    · rw [if_pos hf, if_pos hf] at h
      rw [Option.some.injEq, Prod.mk.injEq] at h
      obtain ⟨hnp', hfl'⟩ := h
      subst hnp'
      subst hfl'
      refine ⟨rfl, ?_, np, hnp, hcmp, Or.inl ⟨hf, rfl, rfl, rfl⟩⟩
      rw [map_nid_eraseP]
      exact hids.not_mem_erase
    · have hf' : np.onFree = false := by simpa using hf
      rw [if_neg hf] at h
      rw [Option.some.injEq, Prod.mk.injEq] at h
      obtain ⟨hnp', hfl'⟩ := h
      subst hnp'
      subst hfl'
      refine ⟨hf', ?_, np, hnp, hcmp, Or.inr ⟨hf', rfl, rfl⟩⟩
      intro hin
      have := (hmem np hnp).mpr hin
      rw [hf'] at this
      exact Bool.false_ne_true this

/-- Witness for C6 at a concrete hit on a freelist-resident node. -/
theorem hashfind_reference_transfer_witness :
    (Node.mk 3 1 [97] 0 true false 1 0 0 false false false false 0).onFree = false ∧
      (Node.mk 3 1 [97] 0 true false 1 0 0 false false false false 0).nid ∉
        ([] : List Node).map Node.nid ∧
      ∃ np ∈ [Node.mk 3 1 [97] 0 true true 1 0 0 false false false false 0],
        fusefs_node_cmp np.rpath [97] = 0 ∧
          ((np.onFree = true ∧
              Node.mk 3 1 [97] 0 true false 1 0 0 false false false false 0 =
                { np with onFree := false } ∧
              ([] : List Node) =
                rmfree_seq [Node.mk 3 1 [97] 0 true true 1 0 0 false false false false 0] np.nid ∧
              (Node.mk 3 1 [97] 0 true false 1 0 0 false false false false 0).vcount = np.vcount)
            ∨ (np.onFree = false ∧
                Node.mk 3 1 [97] 0 true false 1 0 0 false false false false 0 =
                  { np with vcount := np.vcount + 1 } ∧
                ([] : List Node) =
                  [Node.mk 3 1 [97] 0 true true 1 0 0 false false false false 0])) :=
  hashfind_reference_transfer
    [Node.mk 3 1 [97] 0 true true 1 0 0 false false false false 0]
    [Node.mk 3 1 [97] 0 true true 1 0 0 false false false false 0]
    [97] (Node.mk 3 1 [97] 0 true false 1 0 0 false false false false 0) []
    (by decide) (by decide) (by decide)

/--
C5 — amended theorem.  A node returned by a successful lookup has
`v_count ≥ 1` always; it has `v_count ≥ 2` when the hit took the
`VN_HOLD` path (node not on the freelist).  When the node is promoted
off the freelist, the single freelist reference is transferred and
`v_count` is unchanged — so it may be exactly 1, not ≥ 2.
-/
theorem hashfind_refcount_amended (index fl : List Node) (rpath : List Nat)
    (np' : Node) (fl' : List Node)
    (hv : ∀ q ∈ index, 1 ≤ q.vcount)
    (h : sn_hashfind index fl rpath = some (np', fl')) :
    1 ≤ np'.vcount ∧
      ∃ np ∈ index, (np.onFree = false → 2 ≤ np'.vcount) ∧
        (np.onFree = true → np'.vcount = np.vcount) := by
  unfold sn_hashfind at h
  cases hfind : avl_find index rpath with
  | none =>
    rw [hfind] at h
    exact absurd h (by simp)
  | some np =>
    rw [hfind] at h
    dsimp only at h
    have hnp : np ∈ index := List.mem_of_find?_eq_some hfind
    have hv1 : 1 ≤ np.vcount := hv np hnp
    by_cases hf : np.onFree = true
    · rw [if_pos hf, if_pos hf] at h
      rw [Option.some.injEq, Prod.mk.injEq] at h
      obtain ⟨hnp', _⟩ := h
      subst hnp'
      exact ⟨hv1, np, hnp, fun hcon => by rw [hf] at hcon; exact absurd hcon (by simp),
        fun _ => rfl⟩
    · have hf' : np.onFree = false := by simpa using hf
      rw [if_neg hf] at h
      rw [Option.some.injEq, Prod.mk.injEq] at h
      obtain ⟨hnp', _⟩ := h
      subst hnp'
      exact ⟨by simp, np, hnp, fun _ => by simp [Nat.succ_le_succ hv1],
        fun hcon => by rw [hf'] at hcon; exact absurd hcon Bool.false_ne_true⟩

/-- Witness for C5's amended theorem at a concrete hit on a node that
is not freelist-resident. -/
theorem hashfind_refcount_amended_witness :
    1 ≤ (Node.mk 4 1 [98] 0 true false 2 0 0 false false false false 0).vcount ∧
      ∃ np ∈ [Node.mk 4 1 [98] 0 true false 1 0 0 false false false false 0],
        (np.onFree = false →
          2 ≤ (Node.mk 4 1 [98] 0 true false 2 0 0 false false false false 0).vcount) ∧
        (np.onFree = true →
          (Node.mk 4 1 [98] 0 true false 2 0 0 false false false false 0).vcount = np.vcount) :=
  hashfind_refcount_amended
    [Node.mk 4 1 [98] 0 true false 1 0 0 false false false false 0] [] [98]
    (Node.mk 4 1 [98] 0 true false 2 0 0 false false false false 0) []
    (by decide) (by decide)

/--
C5 — counterexample to the claim as stated.  A hashed node sitting on
the freelist with `v_count = 1` (the normal cached-but-cold state) is
returned by the lookup with `v_count` still 1: the freelist reference
is transferred, no count is added, and the claimed `refcount ≥ 2` fails
for the caller-held node.
-/
theorem hashfind_refcount_counterexample :
    sn_hashfind [Node.mk 3 1 [97] 0 true true 1 0 0 false false false false 0]
        [Node.mk 3 1 [97] 0 true true 1 0 0 false false false false 0] [97] =
      some (Node.mk 3 1 [97] 0 true false 1 0 0 false false false false 0, []) ∧
      ¬ 2 ≤ (Node.mk 3 1 [97] 0 true false 1 0 0 false false false false 0).vcount := by
  decide

/-!  ## Unmount teardown (`fusefs_destroy_table`)  -/

theorem cStrncmp_self (a : List Nat) : ∀ n, cStrncmp a a n = 0 := by
  induction a with
  | nil => intro n; cases n <;> rfl
  | cons a as ih =>
    intro n
    cases n with
    | zero => rfl
    | succ n => simp [cStrncmp, ih n]

theorem node_cmp_self (a : List Nat) : fusefs_node_cmp a a = 0 := by
  simp [fusefs_node_cmp, cStrncmp_self]

theorem cStrncmp_swap (a : List Nat) : ∀ (b : List Nat) (n : Nat),
    cStrncmp b a n = -cStrncmp a b n := by
  induction a with
  | nil =>
    intro b n
    cases b with
    | nil => cases n <;> simp [cStrncmp]
    | cons b bs =>
      cases n with
      | zero => simp [cStrncmp]
      | succ n => by_cases hb : b = 0 <;> simp [cStrncmp, hb]
  | cons a as ih =>
    intro b n
    cases b with
    | nil =>
      cases n with
      | zero => simp [cStrncmp]
      | succ n => by_cases ha : a = 0 <;> simp [cStrncmp, ha]
    | cons b bs =>
      cases n with
      | zero => simp [cStrncmp]
      | succ n =>
        by_cases hab : a < b
        · have h1 : ¬ b < a := by omega
          simp [cStrncmp, hab, h1]
        · by_cases hba : b < a
          · simp [cStrncmp, hab, hba]
          · have hEq : b = a := by omega
            subst hEq
            by_cases hb0 : b = 0
            · simp [cStrncmp, hb0]
            · simp [cStrncmp, hb0, ih bs n]

theorem node_cmp_swap (a b : List Nat) : fusefs_node_cmp b a = -fusefs_node_cmp a b := by
  unfold fusefs_node_cmp
  simp only [Nat.min_comm b.length a.length, cStrncmp_swap a b]
  split_ifs <;> omega

/-- Inserting a key greater than everything present appends at the end
(how `fusefs_destroy_table` rebuilds the temporary AVL in drain
order). -/
theorem avl_insert_append (l : List Node) (np : Node)
    (h : ∀ q ∈ l, fusefs_node_cmp q.rpath np.rpath = -1) :
    avl_insert l np = l ++ [np] := by
  induction l with
  | nil => rfl
  | cons q rest ih =>
    have hq := h q (List.mem_cons_self q rest)
    have hgt : fusefs_node_cmp np.rpath q.rpath = 1 := by
      rw [node_cmp_swap, hq]
      rfl
    simp [avl_insert, hgt, ih (fun r hr => h r (List.mem_cons_of_mem q hr))]

/-- The first comparator-equal node in a run preceded only by
strictly-smaller keys is found. -/
theorem avl_find_sorted (l1 l2 : List Node) (np : Node)
    (h1 : ∀ q ∈ l1, fusefs_node_cmp q.rpath np.rpath = -1) :
    avl_find (l1 ++ np :: l2) np.rpath = some np := by
  induction l1 with
  | nil => simp [avl_find, node_cmp_self]
  | cons q rest ih =>
    have hq := h1 q (List.mem_cons_self q rest)
    have hne : (fusefs_node_cmp q.rpath np.rpath == 0) = false := by
      rw [hq]
      rfl
    simpa [avl_find, hne] using ih (fun r hr => h1 r (List.mem_cons_of_mem q hr))

/--
The drain phase of `fusefs_destroy_table`: `avl_destroy_nodes` yields
every node; ones not on the freelist go to the temporary AVL
(`avl_add`), ones on the freelist are `sn_rmfree`d, have `RHASHED`
cleared, and are pushed onto the local destroy list `rlist`.
-/
def drain_loop : List Node → List Node → List Node → List Node →
    List Node × List Node × List Node
  | [], tmp, fl, rlist => (tmp, fl, rlist)
  | np :: rest, tmp, fl, rlist =>
    if np.onFree = false then drain_loop rest (avl_insert tmp np) fl rlist
    else drain_loop rest tmp (rmfree_seq fl np.nid)
      ({ np with onFree := false, hashed := false } :: rlist)

/-- The second phase: route every drained freelist node through
`fusefs_addfree`, collecting the nodes that `sn_destroy_node` takes. -/
def addfree_loop : List Node → List Node → Nat → Nat → Bool →
    List Node × Nat × List Node
  | [], fl, nnew, _, _ => (fl, nnew, [])
  | np :: rest, fl, nnew, ntarget, unm =>
    match fusefs_addfree np fl nnew ntarget unm with
    | (AddfreeResult.destroyed d, fl1, nnew1) =>
      let r := addfree_loop rest fl1 nnew1 ntarget unm
      (r.1, r.2.1, d :: r.2.2)
    | (_, fl1, nnew1) => addfree_loop rest fl1 nnew1 ntarget unm

/-- `fusefs_destroy_table(vfsp)`: returns the rebuilt index, the final
freelist, the final `fusenodenew`, and the destroyed nodes. -/
def fusefs_destroy_table (index fl : List Node) (fusenodenew nfusenode : Nat)
    (unmounted : Bool) : List Node × List Node × Nat × List Node :=
  let d := drain_loop index [] fl []
  let a := addfree_loop d.2.2 d.2.1 fusenodenew nfusenode unmounted
  (d.1, a.1, a.2.1, a.2.2)

theorem drain_loop_spec (ins : List Node) : ∀ (tmp fl rl : List Node),
    (∀ q ∈ tmp, ∀ r ∈ ins, fusefs_node_cmp q.rpath r.rpath = -1) →
    ins.Pairwise (fun a b => fusefs_node_cmp a.rpath b.rpath = -1) →
    (drain_loop ins tmp fl rl).1 = tmp ++ ins.filter (fun np => !np.onFree) ∧
      (drain_loop ins tmp fl rl).2.2 =
        (ins.filter (fun np => np.onFree)).reverse.map
          (fun np => { np with onFree := false, hashed := false }) ++ rl := by
  induction ins with
  | nil => intro tmp fl rl _ _; simp [drain_loop]
  | cons np rest ih =>
    intro tmp fl rl hcross hsort
    rw [List.pairwise_cons] at hsort
    obtain ⟨hnp, hrest⟩ := hsort
    have hcross' : ∀ q ∈ tmp, ∀ r ∈ rest, fusefs_node_cmp q.rpath r.rpath = -1 :=
      fun q hq r hr => hcross q hq r (List.mem_cons_of_mem np hr)
    by_cases hfree : np.onFree = false
    · have hins : avl_insert tmp np = tmp ++ [np] :=
        avl_insert_append tmp np (fun q hq => hcross q hq np (List.mem_cons_self np rest))
      have hcross2 : ∀ q ∈ tmp ++ [np], ∀ r ∈ rest, fusefs_node_cmp q.rpath r.rpath = -1 := by
        intro q hq r hr
        rcases List.mem_append.mp hq with hq1 | hq2
        · exact hcross' q hq1 r hr
        · rw [List.mem_singleton.mp hq2]
          exact hnp r hr
      have := ih (tmp ++ [np]) fl rl hcross2 hrest
      simp only [drain_loop, if_pos hfree, hins]
      rw [this.1, this.2]
      refine ⟨?_, ?_⟩
      · rw [List.filter_cons_of_pos (by simp [hfree]), List.append_assoc]
        simp
      · rw [List.filter_cons_of_neg (by simp [hfree])]
    · have hfree' : np.onFree = true := by simpa using hfree
      have := ih tmp (rmfree_seq fl np.nid)
        ({ np with onFree := false, hashed := false } :: rl) hcross' hrest
      simp only [drain_loop, if_neg hfree]
      rw [this.1, this.2]
      refine ⟨by rw [List.filter_cons_of_neg (by simp [hfree'])], ?_⟩
      rw [List.filter_cons_of_pos (by simp [hfree'])]
      simp [List.reverse_cons, List.map_append]

theorem addfree_loop_spec (rl : List Node) : ∀ (fl : List Node) (nnew ntarget : Nat) (unm : Bool),
    (∀ np ∈ rl, np.hashed = false ∧ 1 ≤ np.vcount) →
    (addfree_loop rl fl nnew ntarget unm).2.2 =
        (rl.filter (fun np => (np.rcount == 0) && (np.vcount == 1))).map sn_inactive ∧
      (addfree_loop rl fl nnew ntarget unm).2.1 =
        nnew - (rl.filter (fun np => (np.rcount == 0) && (np.vcount == 1))).length := by
  induction rl with
  | nil => intro fl nnew ntarget unm _; simp [addfree_loop]
  | cons np rest ih =>
    intro fl nnew ntarget unm h
    obtain ⟨hh, hv⟩ := h np (List.mem_cons_self np rest)
    have hrest : ∀ q ∈ rest, q.hashed = false ∧ 1 ≤ q.vcount :=
      fun q hq => h q (List.mem_cons_of_mem np hq)
    have hinp : (if np.hashed = true then { np with hashed := false } else np) = np := by
      rw [hh]
      simp
    have h1 : ¬ (np.hashed = true ∧ 1 < np.vcount) := fun hcon => by
      rw [hh] at hcon
      exact Bool.false_ne_true hcon.1
    by_cases hr : np.rcount = 0
    · have hcond : np.rcount = 0 ∧
          (np.hashed = false ∨ np.rerror ≠ 0 ∨ unm = true ∨ ntarget < nnew) := ⟨hr, Or.inl hh⟩
      by_cases hv1 : np.vcount = 1
      · have h2 : ¬ 1 < (sn_inactive
            (if np.hashed = true then { np with hashed := false } else np)).vcount := by
          rw [hinp]
          simp [sn_inactive, hv1]
        have hres : fusefs_addfree np fl nnew ntarget unm =
            (AddfreeResult.destroyed (sn_inactive np), fl, nnew - 1) := by
          simp only [fusefs_addfree]
          rw [if_pos hcond, if_neg h1, if_neg h2, hinp]
        simp only [addfree_loop, hres]
        have := ih fl (nnew - 1) ntarget unm hrest
        rw [List.filter_cons_of_pos (by simp [hr, hv1]), List.map_cons]
        refine ⟨by rw [this.1], ?_⟩
        rw [this.2, List.length_cons]
        omega
      · have h2 : 1 < (sn_inactive
            (if np.hashed = true then { np with hashed := false } else np)).vcount := by
          rw [hinp]
          simp only [sn_inactive]
          omega
        have hres : fusefs_addfree np fl nnew ntarget unm =
            (AddfreeResult.abandoned
              { sn_inactive np with vcount := (sn_inactive np).vcount - 1 }, fl, nnew) := by
          simp only [fusefs_addfree]
          rw [if_pos hcond, if_neg h1, if_pos h2, hinp]
        simp only [addfree_loop, hres]
        rw [List.filter_cons_of_neg (by simp [hv1])]
        exact ih fl nnew ntarget unm hrest
    · have hcond : ¬ (np.rcount = 0 ∧
          (np.hashed = false ∨ np.rerror ≠ 0 ∨ unm = true ∨ ntarget < nnew)) :=
        fun hcon => hr hcon.1
      by_cases hv2 : 1 < np.vcount
      · have hres : fusefs_addfree np fl nnew ntarget unm =
            (AddfreeResult.abandoned { np with vcount := np.vcount - 1 }, fl, nnew) := by
          simp only [fusefs_addfree]
          rw [if_neg hcond, if_pos hv2]
        simp only [addfree_loop, hres]
        rw [List.filter_cons_of_neg (by simp [hr])]
        exact ih fl nnew ntarget unm hrest
      · have hres : fusefs_addfree np fl nnew ntarget unm =
            (AddfreeResult.freelisted np, fl ++ [np], nnew) := by
          simp only [fusefs_addfree]
          rw [if_neg hcond, if_neg hv2]
        simp only [addfree_loop, hres]
        rw [List.filter_cons_of_neg (by simp [hr])]
        exact ih (fl ++ [np]) nnew ntarget unm hrest

theorem map_clear_filter (F : List Node) :
    (F.map (fun np => { np with onFree := false, hashed := false })).filter
        (fun q => (q.rcount == 0) && (q.vcount == 1)) =
      (F.filter (fun q => (q.rcount == 0) && (q.vcount == 1))).map
        (fun np => { np with onFree := false, hashed := false }) := by
  induction F with
  | nil => rfl
  | cons q rest ih =>
    by_cases hq : ((q.rcount == 0) && (q.vcount == 1)) = true
    · rw [List.map_cons, List.filter_cons_of_pos (by simpa using hq),
        List.filter_cons_of_pos (by simpa using hq), List.map_cons, ih]
    · rw [List.map_cons, List.filter_cons_of_neg (by simpa using hq),
        List.filter_cons_of_neg (by simpa using hq), ih]

/--
C3 — amended theorem.  `destroy_table` destroys exactly those
freelist-resident nodes that are quiescent (`r_count = 0` and a single
vnode reference): each such node is drained, `sn_rmfree`d, loses
`RHASHED`, goes through `fusefs_addfree` which inactivates and destroys
it, and `fusenodenew` drops by their number.  A freelist node with
`r_count > 0` (or an extra vnode reference) is *not* destroyed — it is
unhashed and re-routed by `fusefs_addfree` instead.  Every node not on
the freelist is preserved unchanged (hence still `HASHED` if it was):
it sits in the rebuilt index and is still findable by its path key.
-/
theorem destroy_table_behaviour (index fl : List Node) (nnew ntarget : Nat) (unm : Bool)
    (hv : ∀ np ∈ index, 1 ≤ np.vcount)
    (hsort : index.Pairwise (fun a b => fusefs_node_cmp a.rpath b.rpath = -1)) :
    (fusefs_destroy_table index fl nnew ntarget unm).2.2.2 =
        ((index.filter (fun np => ((np.rcount == 0) && (np.vcount == 1)) && np.onFree)).reverse).map
          (fun np => sn_inactive { np with onFree := false, hashed := false })
    ∧ (fusefs_destroy_table index fl nnew ntarget unm).2.2.1 =
        nnew -
          (index.filter (fun np => ((np.rcount == 0) && (np.vcount == 1)) && np.onFree)).length
    ∧ (fusefs_destroy_table index fl nnew ntarget unm).1 = index.filter (fun np => !np.onFree)
    ∧ (∀ np ∈ index, np.onFree = false →
        np ∈ (fusefs_destroy_table index fl nnew ntarget unm).1 ∧
          avl_find ((fusefs_destroy_table index fl nnew ntarget unm).1) np.rpath = some np) := by
  have hcross : ∀ q ∈ ([] : List Node), ∀ r ∈ index, fusefs_node_cmp q.rpath r.rpath = -1 := by
    simp
  have hd := drain_loop_spec index [] fl [] hcross hsort
  have hrl : (drain_loop index [] fl []).2.2 =
      (index.filter (fun np => np.onFree)).reverse.map
        (fun np => { np with onFree := false, hashed := false }) := by
    rw [hd.2]
    simp
  have hqs : ∀ np ∈ (drain_loop index [] fl []).2.2, np.hashed = false ∧ 1 ≤ np.vcount := by
    rw [hrl]
    intro np hnp
    rw [List.mem_map] at hnp
    obtain ⟨q, hq1, rfl⟩ := hnp
    rw [List.mem_reverse] at hq1
    exact ⟨rfl, hv q (List.mem_of_mem_filter hq1)⟩
  have ha := addfree_loop_spec (drain_loop index [] fl []).2.2
    (drain_loop index [] fl []).2.1 nnew ntarget unm hqs
  have hchain : ((drain_loop index [] fl []).2.2).filter
      (fun q => (q.rcount == 0) && (q.vcount == 1)) =
      ((index.filter (fun np =>
          ((np.rcount == 0) && (np.vcount == 1)) && np.onFree)).reverse).map
        (fun np => { np with onFree := false, hashed := false }) := by
    rw [hrl, map_clear_filter, List.filter_reverse, List.filter_filter]
  have hds : (fusefs_destroy_table index fl nnew ntarget unm).2.2.2 =
      ((index.filter (fun np =>
          ((np.rcount == 0) && (np.vcount == 1)) && np.onFree)).reverse).map
        (fun np => sn_inactive { np with onFree := false, hashed := false }) := by
    show (addfree_loop (drain_loop index [] fl []).2.2
        (drain_loop index [] fl []).2.1 nnew ntarget unm).2.2 = _
    rw [ha.1, hchain, List.map_map]
    rfl
  have hkept : (fusefs_destroy_table index fl nnew ntarget unm).1 =
      index.filter (fun np => !np.onFree) := by
    show (drain_loop index [] fl []).1 = _
    rw [hd.1]
    simp
  refine ⟨hds, ?_, hkept, ?_⟩
  · show (addfree_loop (drain_loop index [] fl []).2.2
        (drain_loop index [] fl []).2.1 nnew ntarget unm).2.1 = _
    rw [ha.2, hchain]
    simp
  · intro np hnp hfree
    obtain ⟨i1, i2, rfl⟩ := List.append_of_mem hnp
    have hmem : np ∈ (i1 ++ np :: i2).filter (fun np => !np.onFree) :=
      List.mem_filter.mpr ⟨hnp, by simp [hfree]⟩
    rw [List.pairwise_append] at hsort
    obtain ⟨_, _, hcross2⟩ := hsort
    constructor
    · rw [hkept]
      exact hmem
    · rw [hkept, List.filter_append, List.filter_cons_of_pos (by simp [hfree])]
      exact avl_find_sorted _ _ np (fun q hq =>
        hcross2 q (List.mem_of_mem_filter hq) np (List.mem_cons_self np i2))

/--
C3 — counterexample to the claim as stated.  A node on the freelist
with `r_count = 1` at drain time is not destroyed by
`fusefs_destroy_table`: the destroyed list is empty and `fusenodenew`
stays 5, even though the node was freelist-resident (the claim demands
it be destroyed with `nodes_allocated` decremented).
-/
theorem destroy_table_counterexample :
    (fusefs_destroy_table [Node.mk 9 1 [99] 0 true true 1 1 0 false false false false 0]
        [Node.mk 9 1 [99] 0 true true 1 1 0 false false false false 0] 5 10 false).2.2.2 = [] ∧
      (fusefs_destroy_table [Node.mk 9 1 [99] 0 true true 1 1 0 false false false false 0]
        [Node.mk 9 1 [99] 0 true true 1 1 0 false false false false 0] 5 10 false).2.2.1 = 5 ∧
      (Node.mk 9 1 [99] 0 true true 1 1 0 false false false false 0).onFree = true := by
  decide

/-- Witness for C3's amended theorem: one pinned node (`[97]`, off the
freelist) and two quiescent freelist nodes (`[98]`, `[99]`). -/
theorem destroy_table_behaviour_witness :
    (fusefs_destroy_table
        [Node.mk 1 1 [97] 0 true false 1 1 0 false false false false 0,
          Node.mk 2 1 [98] 0 true true 1 0 0 false false false false 0,
          Node.mk 3 1 [99] 0 true true 1 0 0 false false false false 0]
        [Node.mk 2 1 [98] 0 true true 1 0 0 false false false false 0,
          Node.mk 3 1 [99] 0 true true 1 0 0 false false false false 0] 7 10 false).2.2.2 =
        (([Node.mk 1 1 [97] 0 true false 1 1 0 false false false false 0,
          Node.mk 2 1 [98] 0 true true 1 0 0 false false false false 0,
          Node.mk 3 1 [99] 0 true true 1 0 0 false false false false 0].filter
            (fun np => ((np.rcount == 0) && (np.vcount == 1)) && np.onFree)).reverse).map
          (fun np => sn_inactive { np with onFree := false, hashed := false })
    ∧ (fusefs_destroy_table
        [Node.mk 1 1 [97] 0 true false 1 1 0 false false false false 0,
          Node.mk 2 1 [98] 0 true true 1 0 0 false false false false 0,
          Node.mk 3 1 [99] 0 true true 1 0 0 false false false false 0]
        [Node.mk 2 1 [98] 0 true true 1 0 0 false false false false 0,
          Node.mk 3 1 [99] 0 true true 1 0 0 false false false false 0] 7 10 false).2.2.1 =
        7 - ([Node.mk 1 1 [97] 0 true false 1 1 0 false false false false 0,
          Node.mk 2 1 [98] 0 true true 1 0 0 false false false false 0,
          Node.mk 3 1 [99] 0 true true 1 0 0 false false false false 0].filter
            (fun np => ((np.rcount == 0) && (np.vcount == 1)) && np.onFree)).length
    ∧ (fusefs_destroy_table
        [Node.mk 1 1 [97] 0 true false 1 1 0 false false false false 0,
          Node.mk 2 1 [98] 0 true true 1 0 0 false false false false 0,
          Node.mk 3 1 [99] 0 true true 1 0 0 false false false false 0]
        [Node.mk 2 1 [98] 0 true true 1 0 0 false false false false 0,
          Node.mk 3 1 [99] 0 true true 1 0 0 false false false false 0] 7 10 false).1 =
        [Node.mk 1 1 [97] 0 true false 1 1 0 false false false false 0,
          Node.mk 2 1 [98] 0 true true 1 0 0 false false false false 0,
          Node.mk 3 1 [99] 0 true true 1 0 0 false false false false 0].filter
          (fun np => !np.onFree)
    ∧ (∀ np ∈ [Node.mk 1 1 [97] 0 true false 1 1 0 false false false false 0,
          Node.mk 2 1 [98] 0 true true 1 0 0 false false false false 0,
          Node.mk 3 1 [99] 0 true true 1 0 0 false false false false 0], np.onFree = false →
        np ∈ (fusefs_destroy_table
          [Node.mk 1 1 [97] 0 true false 1 1 0 false false false false 0,
            Node.mk 2 1 [98] 0 true true 1 0 0 false false false false 0,
            Node.mk 3 1 [99] 0 true true 1 0 0 false false false false 0]
          [Node.mk 2 1 [98] 0 true true 1 0 0 false false false false 0,
            Node.mk 3 1 [99] 0 true true 1 0 0 false false false false 0] 7 10 false).1 ∧
          avl_find ((fusefs_destroy_table
            [Node.mk 1 1 [97] 0 true false 1 1 0 false false false false 0,
              Node.mk 2 1 [98] 0 true true 1 0 0 false false false false 0,
              Node.mk 3 1 [99] 0 true true 1 0 0 false false false false 0]
            [Node.mk 2 1 [98] 0 true true 1 0 0 false false false false 0,
              Node.mk 3 1 [99] 0 true true 1 0 0 false false false false 0] 7 10 false).1)
            np.rpath = some np) :=
  destroy_table_behaviour
    [Node.mk 1 1 [97] 0 true false 1 1 0 false false false false 0,
      Node.mk 2 1 [98] 0 true true 1 0 0 false false false false 0,
      Node.mk 3 1 [99] 0 true true 1 0 0 false false false false 0]
    [Node.mk 2 1 [98] 0 true true 1 0 0 false false false false 0,
      Node.mk 3 1 [99] 0 true true 1 0 0 false false false false 0] 7 10 false
    (by decide) (by decide)

/-!  ## Find-or-create (`make_fusenode`, `fusefs_node_findcreate`, `fusefs_nget`)  -/

/-- Modelled from the spec: `fusefs_gethash` (in `fusefs_subr.c`, which
is not part of this file) computes the fake inode number as a 64-bit
hash of the path bytes; collisions are tolerable, so any deterministic
hash serves. -/
def fusefs_gethash (p : List Nat) : Nat :=
  p.foldl (fun a b => (a * 131 + b) % 18446744073709551616) 0

/-- The three-way attribute argument of `fusefs_node_findcreate`:
`fusefs_fattr0` is distinguished from real attributes by address. -/
inductive Fattr where
  | fattr0
  | real
deriving DecidableEq

/-- The global cache state threaded through find-or-create: this
mount's index, the process freelist in ring order, and the two
counters. -/
structure CState where
  index : List Node
  freelist : List Node
  fusenodenew : Nat
  nfusenode : Nat
deriving DecidableEq

/--
Tail of `make_fusenode`: with the half-built shell (identity `nid0`,
vnode count `vc`), retake the lock as writer and re-check for a racing
insert of the same key; on a hit, recycle the shell through
`fusefs_addfree` and return the found node, otherwise fill in the path
and the inode hash and link the shell into the index (`sn_addhash`).
-/
def mk_finish (mi : Nat) (rpath : List Nat) (nid0 vc : Nat) (unm : Bool)
    (fl index : List Node) (nnew ntarget : Nat) :
    Node × Bool × List Node × List Node × Nat :=
  let np0 : Node :=
    { nid := nid0, mnt := mi, rpath := [], ino := 0, hashed := false, onFree := false,
      vcount := vc, rcount := 0, rerror := 0, dirty := false, hasPages := false,
      xattr := false, hasCred := false, sepByte := 0 }
  match sn_hashfind index fl rpath with
  | some (tnp, fl1) =>
    let a := fusefs_addfree np0 fl1 nnew ntarget unm
    (tnp, false, index, a.2.1, a.2.2)
  | none =>
    let np1 := { np0 with rpath := rpath, ino := fusefs_gethash rpath, hashed := true }
    (np1, true, avl_insert index np1, fl, nnew)

/--
The `make_fusenode` loop.  Arguments: the mount (`mi`), the composed
key, the identity a fresh slab allocation would take (`freshId`), the
mount's unmount flag, then the loop state: the freelist in ring order,
this mount's index, and the counters.  Returns the node, the `newnode`
flag, and the updated index, freelist, and `fusenodenew`.  Each
`goto start` retry consumes the popped freelist victim, so the
recursion is on the freelist.
-/
def make_go (mi freshId : Nat) (rpath : List Nat) (unm : Bool) :
    List Node → List Node → Nat → Nat → Node × Bool × List Node × List Node × Nat
  | [], index, nnew, ntarget =>
    match sn_hashfind index [] rpath with
    | some (np, fl1) => (np, false, index, fl1, nnew)
    | none =>
      -- freelist empty: kmem_cache_alloc a fusenode, vn_alloc a vnode
      mk_finish mi rpath freshId 1 unm [] index (nnew + 1) ntarget
  | v :: flRest, index, nnew, ntarget =>
    match sn_hashfind index (v :: flRest) rpath with
    | some (np, fl1) => (np, false, index, fl1, nnew)
    | none =>
      if ntarget ≤ nnew then
        -- victim := fusefreelist; sn_rmfree(victim)
        if v.hashed = true then
          if 1 < v.vcount then
            -- raced: v_count--, abandon the victim, start over
            make_go mi freshId rpath unm flRest
              (index.map (fun q =>
                if q.nid = v.nid then { q with vcount := q.vcount - 1 } else q))
              nnew ntarget
          else
            -- sn_rmhash_locked on the victim's own mount
            let index1 := if v.mnt = mi then index.eraseP (fun q => q.nid == v.nid) else index
            let v1 := sn_inactive { v with hashed := false, onFree := false }
            if 1 < v1.vcount then
              make_go mi freshId rpath unm flRest index1 nnew ntarget
            else
              -- vn_reinit(vp): the kept vnode restarts at v_count = 1
              mk_finish mi rpath v1.nid 1 unm flRest index1 nnew ntarget
        else
          let v1 := sn_inactive { v with onFree := false }
          if 1 < v1.vcount then
            make_go mi freshId rpath unm flRest index nnew ntarget
          else
            mk_finish mi rpath v1.nid 1 unm flRest index nnew ntarget
      else
        -- below target: allocate fresh instead of recycling
        mk_finish mi rpath freshId 1 unm (v :: flRest) index (nnew + 1) ntarget

/--
`fusefs_node_findcreate`.  Composes `dirnm ++ sep ++ name` (`sep = 0`
means no separator), then looks up (`fap = none`) or find-or-creates.
The external attribute plumbing on the way out (`fusefs_cache_check`
when the node already existed, then `fusefs_attrcache_fa`, both skipped
for `fusefs_fattr0`) touches only attribute state outside this model.
-/
def fusefs_node_findcreate (mi freshId : Nat) (unm : Bool) (dirnm : List Nat)
    (name : List Nat) (sep : Nat) (fap : Option Fattr) (st : CState) :
    Option Node × CState :=
  let rpath := dirnm ++ (if sep ≠ 0 then [sep] else []) ++ name
  match fap with
  | none =>
    match sn_hashfind st.index st.freelist rpath with
    | none => (none, st)
    | some (np, fl1) => (some np, { st with freelist := fl1 })
  | some _ =>
    let r := make_go mi freshId rpath unm st.freelist st.index st.fusenodenew st.nfusenode
    (some r.1,
      { index := r.2.2.1, freelist := r.2.2.2.1, fusenodenew := r.2.2.2.2,
        nfusenode := st.nfusenode })

/-- With attributes supplied, find-or-create always hands back a node
(the `ASSERT(np != NULL)` in the callers). -/
theorem findcreate_some (mi freshId : Nat) (unm : Bool) (dirnm name : List Nat) (sep : Nat)
    (f : Fattr) (st : CState) :
    ∃ np st1,
      fusefs_node_findcreate mi freshId unm dirnm name sep (some f) st = (some np, st1) :=
  ⟨_, _, rfl⟩

/-- Modelled from the spec: `FUSEFS_DNP_SEP` (defined in
`fusefs_node.h`, which is not part of this file) selects the separator
byte joining a directory path to a child name: `'/'` for ordinary
directories, `':'` for extended-attribute directories, 0 (none) at the
root.  The model carries it on the node. -/
def FUSEFS_DNP_SEP (dnp : Node) : Nat := dnp.sepByte

/--
`fusefs_nget(dvp, name, nmlen, fap, vpp)`: `*vpp` is nulled first, the
names `""`, `"."` and `".."` are rejected with `EINVAL` (22), otherwise
the child is found or created under the directory node, inherits
`N_XATTR` from it, and is stored in `*vpp` with status 0.  Result:
`(status, *vpp, state)`.
-/
def fusefs_nget (dnp : Node) (name : List Nat) (fap : Fattr) (st : CState)
    (freshId : Nat) (unm : Bool) : Nat × Option Node × CState :=
  -- *vpp = NULL
  let vpp : Option Node := none
  if name.length = 0 ∨ (name.length = 1 ∧ name.getD 0 0 = 46) ∨
      (name.length = 2 ∧ name.getD 0 0 = 46 ∧ name.getD 1 0 = 46) then
    (22, vpp, st)
  else
    match fusefs_node_findcreate dnp.mnt freshId unm dnp.rpath name
        (FUSEFS_DNP_SEP dnp) (some fap) st with
    | (some np, st1) =>
      let np1 := if dnp.xattr = true then { np with xattr := true } else np
      (0, some np1, st1)
    | (none, st1) => (0, vpp, st1)  -- unreachable: ASSERT(np != NULL)

theorem nget_badname_iff (name : List Nat) :
    (name.length = 0 ∨ (name.length = 1 ∧ name.getD 0 0 = 46) ∨
        (name.length = 2 ∧ name.getD 0 0 = 46 ∧ name.getD 1 0 = 46)) ↔
      (name = [] ∨ name = [46] ∨ name = [46, 46]) := by
  match name with
  | [] => simp
  | [a] => simp
  | [a, b] => simp
  | a :: b :: c :: rest => simp

/--
C8 — confirmed.  `fusefs_nget` returns `EINVAL` (22) exactly when the
name is empty, `"."`, or `".."`; for every other name it returns 0 with
a node stored in `*vpp`, and that node is the find-or-create result
with `N_XATTR` additionally set exactly when the parent directory node
has `N_XATTR` set (the flag is ored in, never cleared).
-/
theorem nget_einval_and_xattr (dnp : Node) (name : List Nat) (fap : Fattr) (st : CState)
    (freshId : Nat) (unm : Bool) :
    ((fusefs_nget dnp name fap st freshId unm).1 = 22 ↔
      (name = [] ∨ name = [46] ∨ name = [46, 46]))
    ∧ (¬ (name = [] ∨ name = [46] ∨ name = [46, 46]) →
        ∃ np0 st1,
          fusefs_node_findcreate dnp.mnt freshId unm dnp.rpath name
            (FUSEFS_DNP_SEP dnp) (some fap) st = (some np0, st1) ∧
          fusefs_nget dnp name fap st freshId unm =
            (0, some { np0 with xattr := np0.xattr || dnp.xattr }, st1)) := by
  by_cases hbad : name.length = 0 ∨ (name.length = 1 ∧ name.getD 0 0 = 46) ∨
      (name.length = 2 ∧ name.getD 0 0 = 46 ∧ name.getD 1 0 = 46)
  · constructor
    · simp only [fusefs_nget, if_pos hbad]
      simp [(nget_badname_iff name).mp hbad]
    · intro hcon
      exact absurd ((nget_badname_iff name).mp hbad) hcon
  · obtain ⟨np0, st1, hfc⟩ := findcreate_some dnp.mnt freshId unm dnp.rpath name
      (FUSEFS_DNP_SEP dnp) fap st
    have hng : fusefs_nget dnp name fap st freshId unm =
        (0, some (if dnp.xattr = true then { np0 with xattr := true } else np0), st1) := by
      simp only [fusefs_nget, if_neg hbad, hfc]
    constructor
    · rw [hng]
      exact iff_of_false (by norm_num)
        (fun h => hbad ((nget_badname_iff name).mpr h))
    · intro _
      refine ⟨np0, st1, hfc, ?_⟩
      rw [hng]
      by_cases hx : dnp.xattr = true
      · simp [hx]
      · have hx' : dnp.xattr = false := by simpa using hx
        simp [hx', Bool.or_false]

/-- Witness for C8: a valid one-byte name under a root directory node
over the empty cache. -/
theorem nget_einval_and_xattr_witness :
    ((fusefs_nget (Node.mk 0 1 [] 0 true false 2 0 0 false false false false 0) [97]
        Fattr.real (CState.mk [] [] 0 10) 11 false).1 = 22 ↔
      (([97] : List Nat) = [] ∨ ([97] : List Nat) = [46] ∨ ([97] : List Nat) = [46, 46]))
    ∧ (¬ (([97] : List Nat) = [] ∨ ([97] : List Nat) = [46] ∨ ([97] : List Nat) = [46, 46]) →
        ∃ np0 st1,
          fusefs_node_findcreate
            (Node.mk 0 1 [] 0 true false 2 0 0 false false false false 0).mnt 11 false
            (Node.mk 0 1 [] 0 true false 2 0 0 false false false false 0).rpath [97]
            (FUSEFS_DNP_SEP (Node.mk 0 1 [] 0 true false 2 0 0 false false false false 0))
            (some Fattr.real) (CState.mk [] [] 0 10) = (some np0, st1) ∧
          fusefs_nget (Node.mk 0 1 [] 0 true false 2 0 0 false false false false 0) [97]
            Fattr.real (CState.mk [] [] 0 10) 11 false =
            (0, some { np0 with xattr := np0.xattr ||
              (Node.mk 0 1 [] 0 true false 2 0 0 false false false false 0).xattr }, st1)) :=
  nget_einval_and_xattr (Node.mk 0 1 [] 0 true false 2 0 0 false false false false 0)
    [97] Fattr.real (CState.mk [] [] 0 10) 11 false

/--
C10 — confirmed.  `*vpp` is assigned `NULL` before any validation, so
an `EINVAL` return leaves the caller's out-parameter `NULL`, and `*vpp`
holds a vnode only when the returned status is 0.
-/
theorem nget_vpp_null_protocol (dnp : Node) (name : List Nat) (fap : Fattr) (st : CState)
    (freshId : Nat) (unm : Bool) :
    ((fusefs_nget dnp name fap st freshId unm).1 = 22 →
      (fusefs_nget dnp name fap st freshId unm).2.1 = none)
    ∧ (∀ v, (fusefs_nget dnp name fap st freshId unm).2.1 = some v →
        (fusefs_nget dnp name fap st freshId unm).1 = 0) := by
  by_cases hbad : name.length = 0 ∨ (name.length = 1 ∧ name.getD 0 0 = 46) ∨
      (name.length = 2 ∧ name.getD 0 0 = 46 ∧ name.getD 1 0 = 46)
  · simp only [fusefs_nget, if_pos hbad]
    simp
  · obtain ⟨np0, st1, hfc⟩ := findcreate_some dnp.mnt freshId unm dnp.rpath name
      (FUSEFS_DNP_SEP dnp) fap st
    simp only [fusefs_nget, if_neg hbad, hfc]
    simp

/-- Witness for C10 at the rejected name `"."`. -/
theorem nget_vpp_null_protocol_witness :
    ((fusefs_nget (Node.mk 0 2 [] 0 true false 2 0 0 false false false false 0) [46]
        Fattr.fattr0 (CState.mk [] [] 0 10) 12 false).1 = 22 →
      (fusefs_nget (Node.mk 0 2 [] 0 true false 2 0 0 false false false false 0) [46]
        Fattr.fattr0 (CState.mk [] [] 0 10) 12 false).2.1 = none)
    ∧ (∀ v, (fusefs_nget (Node.mk 0 2 [] 0 true false 2 0 0 false false false false 0) [46]
        Fattr.fattr0 (CState.mk [] [] 0 10) 12 false).2.1 = some v →
        (fusefs_nget (Node.mk 0 2 [] 0 true false 2 0 0 false false false false 0) [46]
          Fattr.fattr0 (CState.mk [] [] 0 10) 12 false).1 = 0) :=
  nget_vpp_null_protocol (Node.mk 0 2 [] 0 true false 2 0 0 false false false false 0)
    [46] Fattr.fattr0 (CState.mk [] [] 0 10) 12 false

/-!  ## The freelist ring at pointer level

`fusefs_addfree`'s insertion block and `sn_rmfree` manipulate the
`r_freef`/`r_freeb` links and the `fusefreelist` head directly.  Nodes
stand for their addresses (`Nat`); a null pointer is `none`.  -/

/-- A store to one node's link field. -/
def fupd (f : Nat → Option Nat) (x : Nat) (v : Option Nat) : Nat → Option Nat :=
  fun y => if y = x then v else f y

/-- The freelist's pointer state. -/
structure FreeState where
  freef : Nat → Option Nat
  freeb : Nat → Option Nat
  fusefreelist : Option Nat

/--
The freelist-insertion block of `fusefs_addfree`: initialise a
single-element self-linked ring when the list is empty, otherwise link
`np` in front of the head's back pointer (the ring tail).  Statements
are modelled in source order, later reads seeing earlier stores.
-/
def addfree_link (s : FreeState) (np : Nat) : FreeState :=
  match s.fusefreelist with
  | none =>
    { freef := fupd s.freef np (some np),
      freeb := fupd s.freeb np (some np),
      fusefreelist := some np }
  | some h =>
    -- np->r_freef = fusefreelist
    let f1 := fupd s.freef np (some h)
    -- np->r_freeb = fusefreelist->r_freeb
    let b1 := fupd s.freeb np (s.freeb h)
    -- fusefreelist->r_freeb->r_freef = np
    let t := (b1 h).getD 0
    let f2 := fupd f1 t (some np)
    -- fusefreelist->r_freeb = np
    let b2 := fupd b1 h (some np)
    { freef := f2, freeb := b2, fusefreelist := some h }

/--
`sn_rmfree(np)`: advance (or clear) the head if `np` is it, splice
`np`'s neighbours together, then null both of `np`'s links.
-/
def sn_rmfree (s : FreeState) (np : Nat) : FreeState :=
  let h1 := if s.fusefreelist = some np then s.freef np else s.fusefreelist
  let h2 := if h1 = some np then none else h1
  -- np->r_freeb->r_freef = np->r_freef
  let b := (s.freeb np).getD 0
  let f1 := fupd s.freef b (s.freef np)
  -- np->r_freef->r_freeb = np->r_freeb
  let f := (f1 np).getD 0
  let b1 := fupd s.freeb f (s.freeb np)
  -- np->r_freef = np->r_freeb = NULL
  { freef := fupd f1 np none,
    freeb := fupd b1 np none,
    fusefreelist := h2 }

/-- The `i`-th ring member, indices taken cyclically. -/
def nthRing (l : List Nat) (i : Nat) : Nat := l.getD (i % l.length) 0

/--
`l` lists the freelist members in ring order starting at the head:
off-list nodes have null links, and cyclically consecutive members are
linked forward and backward.
-/
def ringRep (s : FreeState) (l : List Nat) : Prop :=
  l.Nodup ∧
  s.fusefreelist = l.head? ∧
  (∀ x, x ∉ l → s.freef x = none ∧ s.freeb x = none) ∧
  (∀ i, i < l.length →
    s.freef (nthRing l i) = some (nthRing l (i + 1)) ∧
    s.freeb (nthRing l (i + 1)) = some (nthRing l i))

theorem getD_inj (l : List Nat) (hn : l.Nodup) {i j : Nat}
    (hi : i < l.length) (hj : j < l.length) (h : l.getD i 0 = l.getD j 0) : i = j := by
  rw [List.getD_eq_getElem l 0 hi, List.getD_eq_getElem l 0 hj] at h
  exact (List.Nodup.getElem_inj_iff hn).mp h

theorem getD_mem (l : List Nat) {i : Nat} (h : i < l.length) : l.getD i 0 ∈ l := by
  rw [List.getD_eq_getElem l 0 h]
  exact List.getElem_mem h

theorem mem_getD (l : List Nat) {x : Nat} (h : x ∈ l) :
    ∃ i, i < l.length ∧ l.getD i 0 = x := by
  obtain ⟨i, hi, hx⟩ := List.mem_iff_getElem.mp h
  exact ⟨i, hi, by rw [List.getD_eq_getElem l 0 hi]; exact hx⟩

theorem head?_eq_getD (l : List Nat) (h : l ≠ []) : l.head? = some (l.getD 0 0) := by
  cases l with
  | nil => simp at h
  | cons a rest => rfl

/-- Tail insertion: the `fusefs_addfree` freelist block turns a ring
listing `l` into one listing `l ++ [np]`. -/
theorem ring_insert (s : FreeState) (l : List Nat) (np : Nat)
    (hrep : ringRep s l) (hnp : np ∉ l) :
    ringRep (addfree_link s np) (l ++ [np]) := by
  obtain ⟨hnd, hhead, hoff, hstep⟩ := hrep
  cases l with
  | nil =>
    have hh : s.fusefreelist = none := by simpa using hhead
    simp only [addfree_link, hh]
    refine ⟨by simp, by simp, ?_, ?_⟩
    · intro x hx
      have hxnp : x ≠ np := by simpa using hx
      have := hoff x (by simp)
      simp [fupd, hxnp, this.1, this.2]
    · intro i hi
      simp only [List.nil_append, List.length_cons, List.length_nil] at hi
      have hi0 : i = 0 := by omega
      subst hi0
      simp [nthRing, fupd]
  | cons h rest =>
    have hh : s.fusefreelist = some h := hhead
    have hhne : h ≠ np := fun hEq => hnp (hEq ▸ List.mem_cons_self h rest)
    have hn1 : 1 ≤ (h :: rest).length := by simp
    have hwrap : nthRing (h :: rest) ((h :: rest).length - 1 + 1) = h := by
      have he : (h :: rest).length - 1 + 1 = (h :: rest).length := by omega
      rw [he]
      simp [nthRing, Nat.mod_self]
    have hlaststep := hstep ((h :: rest).length - 1) (by omega)
    rw [hwrap] at hlaststep
    have hTr : nthRing (h :: rest) ((h :: rest).length - 1) =
        (h :: rest).getD ((h :: rest).length - 1) 0 := by
      have : ((h :: rest).length - 1) % (h :: rest).length = (h :: rest).length - 1 :=
        Nat.mod_eq_of_lt (by omega)
      simp [nthRing, this]
    rw [hTr] at hlaststep
    have hbh : s.freeb h = some ((h :: rest).getD ((h :: rest).length - 1) 0) := hlaststep.2
    have hTmem : (h :: rest).getD ((h :: rest).length - 1) 0 ∈ h :: rest :=
      getD_mem _ (by omega)
    have hTnp : (h :: rest).getD ((h :: rest).length - 1) 0 ≠ np :=
      fun hEq => hnp (hEq ▸ hTmem)
    -- the new link functions, pointwise
    have hff : ∀ x, (addfree_link s np).freef x =
        if x = (h :: rest).getD ((h :: rest).length - 1) 0 then some np
        else if x = np then some h else s.freef x := by
      intro x
      simp only [addfree_link, hh]
      have ht : fupd s.freeb np (s.freeb h) h = some ((h :: rest).getD ((h :: rest).length - 1) 0) := by
        simp only [fupd, if_neg hhne]
        exact hbh
      rw [ht]
      simp [fupd]
    have hfb : ∀ x, (addfree_link s np).freeb x =
        if x = h then some np
        else if x = np then some ((h :: rest).getD ((h :: rest).length - 1) 0)
        else s.freeb x := by
      intro x
      simp only [addfree_link, hh]
      simp only [fupd]
      by_cases hx1 : x = h
      · simp [hx1, hhne]
      · by_cases hx2 : x = np
        · simp [hx1, hx2, hbh]
        · simp [hx1, hx2]
    have hhd : (addfree_link s np).fusefreelist = some h := by
      simp only [addfree_link, hh]
    refine ⟨?_, ?_, ?_, ?_⟩
    · rw [List.nodup_append]
      exact ⟨hnd, by simp, by
        intro a ha hb
        simp only [List.mem_singleton] at hb
        subst hb
        exact hnp ha⟩
    · rw [hhd]
      rfl
    · intro x hx
      have hx1 : x ∉ h :: rest := fun hc => hx (List.mem_append.mpr (Or.inl hc))
      have hx2 : x ≠ np := fun hc => hx (List.mem_append.mpr (Or.inr (by simp [hc])))
      have hxT : x ≠ (h :: rest).getD ((h :: rest).length - 1) 0 :=
        fun hc => hx1 (hc ▸ hTmem)
      have hxh : x ≠ h := fun hc => hx1 (hc ▸ List.mem_cons_self h rest)
      rw [hff, hfb, if_neg hxT, if_neg hx2, if_neg hxh, if_neg hx2]
      exact hoff x hx1
    · intro i hi
      rw [List.length_append, List.length_singleton] at hi
      have hlen : ((h :: rest) ++ [np]).length = (h :: rest).length + 1 := by
        rw [List.length_append, List.length_singleton]
      have hmod1 : i % ((h :: rest) ++ [np]).length = i := by
        rw [hlen]
        exact Nat.mod_eq_of_lt hi
      by_cases hc1 : i + 1 < (h :: rest).length
      · have hmod2 : (i + 1) % ((h :: rest) ++ [np]).length = i + 1 := by
          rw [hlen]
          exact Nat.mod_eq_of_lt (by omega)
        have hg1 : nthRing ((h :: rest) ++ [np]) i = (h :: rest).getD i 0 := by
          rw [nthRing, hmod1, List.getD_append _ _ 0 i (by omega)]
        have hg2 : nthRing ((h :: rest) ++ [np]) (i + 1) = (h :: rest).getD (i + 1) 0 := by
          rw [nthRing, hmod2, List.getD_append _ _ 0 (i + 1) (by omega)]
        have hstepi := hstep i (by omega)
        have hni : nthRing (h :: rest) i = (h :: rest).getD i 0 := by
          rw [nthRing, Nat.mod_eq_of_lt (by omega)]
        have hni1 : nthRing (h :: rest) (i + 1) = (h :: rest).getD (i + 1) 0 := by
          rw [nthRing, Nat.mod_eq_of_lt (by omega)]
        rw [hni, hni1] at hstepi
        have hxT : (h :: rest).getD i 0 ≠ (h :: rest).getD ((h :: rest).length - 1) 0 := by
          intro hc
          have := getD_inj (h :: rest) hnd (by omega) (by omega) hc
          omega
        have hxnp : (h :: rest).getD i 0 ≠ np :=
          fun hc => hnp (hc ▸ getD_mem _ (by omega : i < (h :: rest).length))
        have hyh : (h :: rest).getD (i + 1) 0 ≠ h := by
          intro hc
          have hh0 : (h : Nat) = (h :: rest).getD 0 0 := rfl
          rw [hh0] at hc
          have := getD_inj (h :: rest) hnd (by omega) (by omega) hc
          omega
        have hynp : (h :: rest).getD (i + 1) 0 ≠ np :=
          fun hc => hnp (hc ▸ getD_mem _ (by omega : i + 1 < (h :: rest).length))
        rw [hg1, hg2, hff, hfb, if_neg hxT, if_neg hxnp, if_neg hyh, if_neg hynp]
        exact hstepi
      · by_cases hc2 : i + 1 = (h :: rest).length
        · have hmod2 : (i + 1) % ((h :: rest) ++ [np]).length = i + 1 := by
            rw [hlen]
            exact Nat.mod_eq_of_lt (by omega)
          have hg1 : nthRing ((h :: rest) ++ [np]) i =
              (h :: rest).getD ((h :: rest).length - 1) 0 := by
            rw [nthRing, hmod1, List.getD_append _ _ 0 i (by omega)]
            congr 1
            omega
          have hg2 : nthRing ((h :: rest) ++ [np]) (i + 1) = np := by
            rw [nthRing, hmod2, hc2, List.getD_append_right _ _ 0 _ le_rfl]
            simp
          rw [hg1, hg2, hff, hfb, if_pos rfl, if_neg (Ne.symm hhne), if_pos rfl]
          exact ⟨rfl, rfl⟩
        · have hc3 : i = (h :: rest).length := by omega
          have hmod2 : (i + 1) % ((h :: rest) ++ [np]).length = 0 := by
            rw [hlen, hc3]
            simp
          have hg1 : nthRing ((h :: rest) ++ [np]) i = np := by
            rw [nthRing, hmod1, hc3, List.getD_append_right _ _ 0 _ le_rfl]
            simp
          have hg2 : nthRing ((h :: rest) ++ [np]) (i + 1) = h := by
            rw [nthRing, hmod2]
            rfl
          rw [hg1, hg2, hff, hfb, if_neg hTnp.symm, if_pos rfl, if_pos rfl]
          exact ⟨rfl, rfl⟩

/-- Pointwise effect of `sn_rmfree` given the victim's two links. -/
theorem sn_rmfree_eval (s : FreeState) (np B F : Nat)
    (hbnp : s.freeb np = some B) (hfnp : s.freef np = some F) :
    (∀ x, (sn_rmfree s np).freef x =
        if x = np then none else if x = B then some F else s.freef x) ∧
    (∀ x, (sn_rmfree s np).freeb x =
        if x = np then none else if x = F then some B else s.freeb x) ∧
    (sn_rmfree s np).fusefreelist =
      (if s.fusefreelist = some np then (if F = np then none else some F)
       else s.fusefreelist) := by
  have hb0 : (s.freeb np).getD 0 = B := by rw [hbnp]; rfl
  have hf1 : fupd s.freef ((s.freeb np).getD 0) (s.freef np) np = some F := by
    rw [hb0, hfnp]
    by_cases hv : np = B <;> simp [fupd, hv, hfnp]
  refine ⟨?_, ?_, ?_⟩
  · intro x
    simp only [sn_rmfree, hb0, hfnp]
    by_cases hx : x = np
    · simp [fupd, hx]
    · by_cases hxB : x = B <;> simp [fupd, hx, hxB]
  · intro x
    simp only [sn_rmfree, hf1]
    simp only [Option.getD_some, hbnp]
    by_cases hx : x = np
    · simp [fupd, hx]
    · by_cases hxF : x = F <;> simp [fupd, hx, hxF]
  · simp only [sn_rmfree]
    by_cases hc : s.fusefreelist = some np
    · rw [if_pos hc, if_pos hc, hfnp]
      by_cases hF : F = np
      · rw [if_pos hF, if_pos (by rw [hF])]
      · rw [if_neg hF, if_neg (by simp [hF])]
    · rw [if_neg hc, if_neg hc, if_neg hc]

theorem getD_take_lt (l : List Nat) (k i : Nat) (h1 : i < k) (h2 : i < l.length) :
    (l.take k).getD i 0 = l.getD i 0 := by
  have hi : i < (l.take k).length := by
    rw [List.length_take]
    omega
  rw [List.getD_eq_getElem _ 0 hi, List.getD_eq_getElem _ 0 h2]
  exact List.getElem_take l

theorem getD_drop_add (l : List Nat) (k i : Nat) (h : k + i < l.length) :
    (l.drop k).getD i 0 = l.getD (k + i) 0 := by
  have hi : i < (l.drop k).length := by
    rw [List.length_drop]
    omega
  rw [List.getD_eq_getElem _ 0 hi, List.getD_eq_getElem _ 0 h]
  exact List.getElem_drop _

theorem length_takeDrop (l : List Nat) (k : Nat) (hk : k < l.length) :
    (l.take k ++ l.drop (k + 1)).length = l.length - 1 := by
  rw [List.length_append, List.length_take, List.length_drop]
  omega

theorem getD_takeDrop (l : List Nat) (k i : Nat) (hk : k < l.length) (hi : i < l.length - 1) :
    (l.take k ++ l.drop (k + 1)).getD i 0 =
      if i < k then l.getD i 0 else l.getD (i + 1) 0 := by
  have hlt : (l.take k).length = k := by
    rw [List.length_take]
    omega
  by_cases hik : i < k
  · rw [if_pos hik, List.getD_append _ _ 0 i (by omega), getD_take_lt l k i hik (by omega)]
  · rw [if_neg hik, List.getD_append_right _ _ 0 i (by omega), hlt,
      getD_drop_add l (k + 1) (i - k) (by omega)]
    congr 1
    omega

theorem takeDrop_split (l : List Nat) (k : Nat) (hk : k < l.length) :
    l = l.take k ++ l.getD k 0 :: l.drop (k + 1) := by
  conv_lhs => rw [← List.take_append_drop k l]
  rw [List.drop_eq_getElem_cons hk, List.getD_eq_getElem l 0 hk]

theorem takeDrop_mem (l : List Nat) (hn : l.Nodup) (k : Nat) (hk : k < l.length) (x : Nat) :
    x ∈ l.take k ++ l.drop (k + 1) ↔ (x ∈ l ∧ x ≠ l.getD k 0) := by
  have hsplit := takeDrop_split l k hk
  have hnd2 : (l.take k ++ l.getD k 0 :: l.drop (k + 1)).Nodup := hsplit ▸ hn
  rw [List.nodup_append] at hnd2
  obtain ⟨_, hnd4, hdisj⟩ := hnd2
  rw [List.nodup_cons] at hnd4
  constructor
  · intro hx
    rcases List.mem_append.mp hx with hx1 | hx2
    · refine ⟨by rw [hsplit]; exact List.mem_append.mpr (Or.inl hx1), ?_⟩
      intro hEq
      exact hdisj hx1 (hEq ▸ List.mem_cons_self _ _)
    · refine ⟨?_, ?_⟩
      · rw [hsplit]
        exact List.mem_append.mpr (Or.inr (List.mem_cons_of_mem _ hx2))
      · intro hEq
        exact hnd4.1 (hEq ▸ hx2)
  · rintro ⟨hxl, hxne⟩
    rw [hsplit] at hxl
    rcases List.mem_append.mp hxl with hx1 | hx2
    · exact List.mem_append.mpr (Or.inl hx1)
    · rcases List.mem_cons.mp hx2 with hEq | hx3
      · exact absurd hEq hxne
      · exact List.mem_append.mpr (Or.inr hx3)

/-- `sn_rmfree` removes one member from the ring: the remaining members
in ring order (rotated to the surviving head) represent the new
state. -/
theorem ring_remove (s : FreeState) (l : List Nat) (np : Nat)
    (hrep : ringRep s l) (hnp : np ∈ l) :
    ∃ l', ringRep (sn_rmfree s np) l' ∧ (∀ x, x ∈ l' ↔ x ∈ l ∧ x ≠ np) := by
  obtain ⟨hnd, hhead, hoff, hstep⟩ := hrep
  obtain ⟨k, hk, hgk⟩ := mem_getD l hnp
  have hne : l ≠ [] := List.ne_nil_of_mem hnp
  have hnth : ∀ i, i < l.length → nthRing l i = l.getD i 0 := fun i hi => by
    rw [nthRing, Nat.mod_eq_of_lt hi]
  have hstepk := hstep k hk
  rw [hnth k hk, hgk] at hstepk
  by_cases hn1 : l.length = 1
  · -- single-member ring: everything in l is np
    have hk0 : k = 0 := by omega
    subst hk0
    have honly : ∀ x ∈ l, x = np := by
      intro x hx
      obtain ⟨i, hi, hgi⟩ := mem_getD l hx
      have hi0 : i = 0 := by omega
      subst hi0
      have hgk2 := hgk
      rw [hgi] at hgk2
      exact hgk2
    have hF1 : nthRing l (0 + 1) = np := by
      rw [nthRing, hn1]
      simpa using hgk
    rw [hF1] at hstepk
    have hfnp : s.freef np = some np := hstepk.1
    have hstep0 := hstep 0 (by omega)
    rw [hF1, hnth 0 (by omega), hgk] at hstep0
    have hbnp : s.freeb np = some np := hstep0.2
    obtain ⟨hffx, hfbx, hhdx⟩ := sn_rmfree_eval s np np np hbnp hfnp
    have hhdnp : s.fusefreelist = some np := by
      rw [hhead, head?_eq_getD l hne, hgk]
    refine ⟨[], ⟨by simp, ?_, ?_, by intro i hi; simp at hi⟩, ?_⟩
    · rw [hhdx, if_pos hhdnp, if_pos rfl]
      rfl
    · intro x _
      by_cases hx : x = np
      · rw [hffx, hfbx, if_pos hx, if_pos hx]
        exact ⟨rfl, rfl⟩
      · have hxl : x ∉ l := fun hc => hx (honly x hc)
        rw [hffx, hfbx, if_neg hx, if_neg hx, if_neg hx, if_neg hx]
        exact hoff x hxl
    · intro x
      simp only [List.not_mem_nil, false_iff]
      rintro ⟨hxl, hxne⟩
      exact hxne (honly x hxl)
  · -- at least two members
    have hn2 : 2 ≤ l.length := by omega
    have hfnp : s.freef np = some (nthRing l (k + 1)) := hstepk.1
    have hjB : (if k = 0 then l.length - 1 else k - 1) < l.length := by
      by_cases hk0 : k = 0
      · rw [if_pos hk0]
        omega
      · rw [if_neg hk0]
        omega
    have hstepj := hstep (if k = 0 then l.length - 1 else k - 1) hjB
    have hadj : nthRing l ((if k = 0 then l.length - 1 else k - 1) + 1) = np := by
      by_cases hk0 : k = 0
      · rw [if_pos hk0, nthRing]
        have he : l.length - 1 + 1 = l.length := by omega
        rw [he, Nat.mod_self]
        rw [hk0] at hgk
        exact hgk
      · rw [if_neg hk0, nthRing]
        have he : k - 1 + 1 = k := by omega
        rw [he, Nat.mod_eq_of_lt hk]
        exact hgk
    rw [hadj, hnth _ hjB] at hstepj
    have hbnp : s.freeb np =
        some (l.getD (if k = 0 then l.length - 1 else k - 1) 0) := hstepj.2
    have hBmem : l.getD (if k = 0 then l.length - 1 else k - 1) 0 ∈ l := getD_mem l hjB
    have hBne : l.getD (if k = 0 then l.length - 1 else k - 1) 0 ≠ np := by
      intro hEq
      have hinj := getD_inj l hnd hjB hk (hEq.trans hgk.symm)
      by_cases hk0 : k = 0
      · rw [if_pos hk0] at hinj
        omega
      · rw [if_neg hk0] at hinj
        omega
    have hFmem : nthRing l (k + 1) ∈ l := by
      rw [nthRing]
      exact getD_mem l (Nat.mod_lt _ (by omega))
    have hFg : nthRing l (k + 1) =
        (if k + 1 = l.length then l.getD 0 0 else l.getD (k + 1) 0) := by
      by_cases hc : k + 1 = l.length
      · rw [if_pos hc, nthRing, hc, Nat.mod_self]
      · rw [if_neg hc, nthRing, Nat.mod_eq_of_lt (by omega)]
    have hFne : nthRing l (k + 1) ≠ np := by
      rw [hFg]
      by_cases hc : k + 1 = l.length
      · rw [if_pos hc]
        intro hEq
        have := getD_inj l hnd (by omega) hk (hEq.trans hgk.symm)
        omega
      · rw [if_neg hc]
        intro hEq
        have := getD_inj l hnd (by omega) hk (hEq.trans hgk.symm)
        omega
    obtain ⟨hffx, hfbx, hhdx⟩ :=
      sn_rmfree_eval s np (l.getD (if k = 0 then l.length - 1 else k - 1) 0)
        (nthRing l (k + 1)) hbnp hfnp
    have hlen' : (l.take k ++ l.drop (k + 1)).length = l.length - 1 := length_takeDrop l k hk
    have hne' : l.take k ++ l.drop (k + 1) ≠ [] := by
      intro hc
      have := congrArg List.length hc
      rw [hlen'] at this
      simp at this
      omega
    have hmem' : ∀ x, x ∈ l.take k ++ l.drop (k + 1) ↔ (x ∈ l ∧ x ≠ np) := by
      intro x
      rw [takeDrop_mem l hnd k hk x, hgk]
    have hsub : List.Sublist (l.take k ++ l.drop (k + 1)) l := by
      conv_rhs => rw [takeDrop_split l k hk]
      exact List.Sublist.append_left (List.sublist_cons_self _ _) _
    refine ⟨l.take k ++ l.drop (k + 1), ⟨List.Nodup.sublist hsub hnd, ?_, ?_, ?_⟩, hmem'⟩
    · -- the head after removal
      rw [hhdx]
      by_cases hk0 : k = 0
      · have hcond : s.fusefreelist = some np := by
          rw [hhead, head?_eq_getD l hne]
          rw [hk0] at hgk
          rw [hgk]
        rw [if_pos hcond, if_neg hFne, head?_eq_getD _ hne',
          getD_takeDrop l k 0 hk (by omega), if_neg (by omega), hFg,
          if_neg (by omega), hk0]
      · have hcond : ¬ s.fusefreelist = some np := by
          rw [hhead, head?_eq_getD l hne]
          intro hc
          have hc2 : l.getD 0 0 = np := by
            injection hc
          have := getD_inj l hnd (by omega) hk (hc2.trans hgk.symm)
          omega
        rw [if_neg hcond, hhead, head?_eq_getD l hne, head?_eq_getD _ hne',
          getD_takeDrop l k 0 hk (by omega), if_pos (by omega)]
    · -- off-ring nodes keep null links
      intro x hx
      by_cases hxnp : x = np
      · rw [hffx, hfbx, if_pos hxnp, if_pos hxnp]
        exact ⟨rfl, rfl⟩
      · have hxl : x ∉ l := fun hc => hx ((hmem' x).mpr ⟨hc, hxnp⟩)
        have hxB : x ≠ l.getD (if k = 0 then l.length - 1 else k - 1) 0 :=
          fun hc => hxl (hc ▸ hBmem)
        have hxF : x ≠ nthRing l (k + 1) := fun hc => hxl (hc ▸ hFmem)
        rw [hffx, hfbx, if_neg hxnp, if_neg hxB, if_neg hxnp, if_neg hxF]
        exact hoff x hxl
    · -- the ring steps of the shortened list
      intro i hi
      rw [hlen'] at hi
      have hmodi : i % (l.take k ++ l.drop (k + 1)).length = i := by
        rw [hlen']
        exact Nat.mod_eq_of_lt hi
      have hA : nthRing (l.take k ++ l.drop (k + 1)) i =
          (if i < k then l.getD i 0 else l.getD (i + 1) 0) := by
        rw [nthRing, hmodi, getD_takeDrop l k i hk hi]
      by_cases hw : i + 1 < l.length - 1
      · have hmodi1 : (i + 1) % (l.take k ++ l.drop (k + 1)).length = i + 1 := by
          rw [hlen']
          exact Nat.mod_eq_of_lt hw
        have hA1 : nthRing (l.take k ++ l.drop (k + 1)) (i + 1) =
            (if i + 1 < k then l.getD (i + 1) 0 else l.getD (i + 1 + 1) 0) := by
          rw [nthRing, hmodi1, getD_takeDrop l k (i + 1) hk hw]
        by_cases hred : i + 1 = k
        · -- the spliced pair (B, F)
          rw [hA, if_pos (by omega), hA1, if_neg (by omega)]
          have hAB : l.getD i 0 = l.getD (if k = 0 then l.length - 1 else k - 1) 0 := by
            rw [if_neg (by omega : ¬ k = 0)]
            congr 1
            omega
          have hAF : l.getD (i + 1 + 1) 0 = nthRing l (k + 1) := by
            rw [hFg, if_neg (by omega)]
            congr 1
            omega
          rw [hAB, hAF, hffx, hfbx, if_neg hBne, if_pos rfl, if_neg hFne, if_pos rfl]
          exact ⟨rfl, rfl⟩
        · by_cases hik : i + 1 < k
          · -- an untouched pair below the removal point
            have hstepi := hstep i (by omega)
            rw [hnth i (by omega), hnth (i + 1) (by omega)] at hstepi
            rw [hA, if_pos (by omega), hA1, if_pos hik]
            have h1 : l.getD i 0 ≠ np := by
              intro hc
              have := getD_inj l hnd (by omega) hk (hc.trans hgk.symm)
              omega
            have h2 : l.getD i 0 ≠ l.getD (if k = 0 then l.length - 1 else k - 1) 0 := by
              intro hc
              have hinj := getD_inj l hnd (by omega) hjB hc
              by_cases hk0 : k = 0
              · omega
              · rw [if_neg hk0] at hinj
                omega
            have h3 : l.getD (i + 1) 0 ≠ np := by
              intro hc
              have := getD_inj l hnd (by omega) hk (hc.trans hgk.symm)
              omega
            have h4 : l.getD (i + 1) 0 ≠ nthRing l (k + 1) := by
              rw [hFg]
              by_cases hc : k + 1 = l.length
              · rw [if_pos hc]
                intro hEq
                have := getD_inj l hnd (by omega) (by omega) hEq
                omega
              · rw [if_neg hc]
                intro hEq
                have := getD_inj l hnd (by omega) (by omega) hEq
                omega
            rw [hffx, hfbx, if_neg h1, if_neg h2, if_neg h3, if_neg h4]
            exact hstepi
          · -- an untouched pair above the removal point
            have hstepi := hstep (i + 1) (by omega)
            rw [hnth (i + 1) (by omega), hnth (i + 1 + 1) (by omega)] at hstepi
            rw [hA, if_neg (by omega), hA1, if_neg (by omega)]
            have h1 : l.getD (i + 1) 0 ≠ np := by
              intro hc
              have := getD_inj l hnd (by omega) hk (hc.trans hgk.symm)
              omega
            have h2 : l.getD (i + 1) 0 ≠
                l.getD (if k = 0 then l.length - 1 else k - 1) 0 := by
              intro hc
              have hinj := getD_inj l hnd (by omega) hjB hc
              by_cases hk0 : k = 0
              · rw [if_pos hk0] at hinj
                omega
              · rw [if_neg hk0] at hinj
                omega
            have h3 : l.getD (i + 1 + 1) 0 ≠ np := by
              intro hc
              have := getD_inj l hnd (by omega) hk (hc.trans hgk.symm)
              omega
            have h4 : l.getD (i + 1 + 1) 0 ≠ nthRing l (k + 1) := by
              rw [hFg]
              by_cases hc : k + 1 = l.length
              · rw [if_pos hc]
                intro hEq
                have := getD_inj l hnd (by omega) (by omega) hEq
                omega
              · rw [if_neg hc]
                intro hEq
                have := getD_inj l hnd (by omega) (by omega) hEq
                omega
            rw [hffx, hfbx, if_neg h1, if_neg h2, if_neg h3, if_neg h4]
            exact hstepi
      · -- the wrap-around pair
        have hw2 : i + 1 = l.length - 1 := by omega
        have hmodi1 : (i + 1) % (l.take k ++ l.drop (k + 1)).length = 0 := by
          rw [hlen', hw2]
          exact Nat.mod_self _
        have hA1 : nthRing (l.take k ++ l.drop (k + 1)) (i + 1) =
            (if 0 < k then l.getD 0 0 else l.getD (0 + 1) 0) := by
          rw [nthRing, hmodi1, getD_takeDrop l k 0 hk (by omega)]
        by_cases hk0 : k = 0
        · -- head removed: the pair is (B, F) = (last, second)
          rw [hA, if_neg (by omega), hA1, if_neg (by omega)]
          have hAB : l.getD (i + 1) 0 = l.getD (if k = 0 then l.length - 1 else k - 1) 0 := by
            rw [if_pos hk0, hw2]
          have hAF : l.getD (0 + 1) 0 = nthRing l (k + 1) := by
            rw [hFg, if_neg (by omega), hk0]
          rw [hAB, hAF, hffx, hfbx, if_neg hBne, if_pos rfl, if_neg hFne, if_pos rfl]
          exact ⟨rfl, rfl⟩
        · by_cases hkn : k = l.length - 1
          · -- tail removed: the pair is (B, F) = (second-to-last, head)
            rw [hA, if_pos (by omega), hA1, if_pos (by omega)]
            have hAB : l.getD i 0 = l.getD (if k = 0 then l.length - 1 else k - 1) 0 := by
              rw [if_neg hk0]
              congr 1
              omega
            have hAF : l.getD 0 0 = nthRing l (k + 1) := by
              rw [hFg, if_pos (by omega)]
            rw [hAB, hAF, hffx, hfbx, if_neg hBne, if_pos rfl, if_neg hFne, if_pos rfl]
            exact ⟨rfl, rfl⟩
          · -- interior removal: the old wrap pair survives
            have hstepn := hstep (l.length - 1) (by omega)
            have hnn : nthRing l (l.length - 1 + 1) = l.getD 0 0 := by
              rw [nthRing]
              have he : l.length - 1 + 1 = l.length := by omega
              rw [he, Nat.mod_self]
            rw [hnn, hnth (l.length - 1) (by omega)] at hstepn
            rw [hA, if_neg (by omega), hA1, if_pos (by omega)]
            have he1 : l.getD (i + 1) 0 = l.getD (l.length - 1) 0 := by
              congr 1
            have h1 : l.getD (l.length - 1) 0 ≠ np := by
              intro hc
              have := getD_inj l hnd (by omega) hk (hc.trans hgk.symm)
              omega
            have h2 : l.getD (l.length - 1) 0 ≠
                l.getD (if k = 0 then l.length - 1 else k - 1) 0 := by
              intro hc
              have hinj := getD_inj l hnd (by omega) hjB hc
              rw [if_neg hk0] at hinj
              omega
            have h3 : l.getD 0 0 ≠ np := by
              intro hc
              have := getD_inj l hnd (by omega) hk (hc.trans hgk.symm)
              omega
            have h4 : l.getD 0 0 ≠ nthRing l (k + 1) := by
              rw [hFg, if_neg (by omega)]
              intro hEq
              have := getD_inj l hnd (by omega) (by omega) hEq
              omega
            rw [he1, hffx, hfbx, if_neg h1, if_neg h2, if_neg h3, if_neg h4]
            exact hstepn

/--
C9 — confirmed.  Under the ring representation invariant: a node is on
the freelist iff both `r_freef` and `r_freeb` are non-null; for every
member the links are bidirectionally consistent
(`free_prev.free_next == node == free_next.free_prev`); the
`fusefs_addfree` insertion block preserves the invariant (including
initialising a single-element self-linked ring), appending the node at
the ring tail; and `sn_rmfree` preserves it on the remaining members
(including emptying the list, and nulling both links of the removed
node, which is off the resulting ring).
-/
theorem freelist_ring_invariant (s : FreeState) (l : List Nat) (np : Nat)
    (hrep : ringRep s l) :
    (∀ x, x ∈ l ↔ (s.freef x ≠ none ∧ s.freeb x ≠ none))
    ∧ (∀ x y, x ∈ l → (s.freef x = some y → s.freeb y = some x ∧ y ∈ l)
        ∧ (s.freeb x = some y → s.freef y = some x ∧ y ∈ l))
    ∧ (np ∉ l → ringRep (addfree_link s np) (l ++ [np]))
    ∧ (np ∈ l → ∃ l', ringRep (sn_rmfree s np) l' ∧
        (∀ x, x ∈ l' ↔ x ∈ l ∧ x ≠ np)) := by
  obtain ⟨hnd, hhead, hoff, hstep⟩ := hrep
  have hnth : ∀ i, i < l.length → nthRing l i = l.getD i 0 := fun i hi => by
    rw [nthRing, Nat.mod_eq_of_lt hi]
  have hprev : ∀ x ∈ l, ∃ j, j < l.length ∧ nthRing l (j + 1) = x := by
    intro x hx
    obtain ⟨i, hi, hgi⟩ := mem_getD l hx
    by_cases hi0 : i = 0
    · subst hi0
      refine ⟨l.length - 1, by omega, ?_⟩
      have he : l.length - 1 + 1 = l.length := by omega
      rw [nthRing, he, Nat.mod_self]
      exact hgi
    · refine ⟨i - 1, by omega, ?_⟩
      have he : i - 1 + 1 = i := by omega
      rw [nthRing, he, Nat.mod_eq_of_lt hi]
      exact hgi
  have hringmem : ∀ i, 0 < l.length → nthRing l i ∈ l := by
    intro i hpos
    rw [nthRing]
    exact getD_mem l (Nat.mod_lt _ hpos)
  refine ⟨?_, ?_, fun h => ring_insert s l np ⟨hnd, hhead, hoff, hstep⟩ h,
    fun h => ring_remove s l np ⟨hnd, hhead, hoff, hstep⟩ h⟩
  · intro x
    constructor
    · intro hx
      obtain ⟨i, hi, hgi⟩ := mem_getD l hx
      have hstepi := hstep i hi
      rw [hnth i hi, hgi] at hstepi
      obtain ⟨j, hj, hgj⟩ := hprev x hx
      have hstepj := hstep j hj
      rw [hgj] at hstepj
      constructor
      · rw [hstepi.1]
        simp
      · rw [hstepj.2]
        simp
    · intro hfb
      by_contra hx
      exact hfb.1 (hoff x hx).1
  · intro x y hx
    have hpos : 0 < l.length := List.length_pos.mpr (List.ne_nil_of_mem hx)
    obtain ⟨i, hi, hgi⟩ := mem_getD l hx
    have hstepi := hstep i hi
    rw [hnth i hi, hgi] at hstepi
    obtain ⟨j, hj, hgj⟩ := hprev x hx
    have hstepj := hstep j hj
    rw [hgj] at hstepj
    constructor
    · intro hfy
      have hEq := hstepi.1.symm.trans hfy
      rw [Option.some.injEq] at hEq
      subst hEq
      exact ⟨hstepi.2, hringmem (i + 1) hpos⟩
    · intro hby
      have hEq := hstepj.2.symm.trans hby
      rw [Option.some.injEq] at hEq
      subst hEq
      exact ⟨hstepj.1, hringmem j hpos⟩

/-- A concrete two-member freelist ring for the C9 witness. -/
def ringWitnessState : FreeState :=
  { freef := fun y => if y = 1 then some 2 else if y = 2 then some 1 else none,
    freeb := fun y => if y = 1 then some 2 else if y = 2 then some 1 else none,
    fusefreelist := some 1 }

theorem ringWitnessState_rep : ringRep ringWitnessState [1, 2] := by
  refine ⟨by decide, rfl, ?_, ?_⟩
  · intro x hx
    simp only [List.mem_cons, List.not_mem_nil, or_false, not_or] at hx
    simp [ringWitnessState, hx.1, hx.2]
  · intro i hi
    simp only [List.length_cons, List.length_nil] at hi
    interval_cases i <;> exact ⟨rfl, rfl⟩

/-- Witness for C9 on the concrete two-member ring with `np = 3`. -/
theorem freelist_ring_invariant_witness :
    (∀ x, x ∈ [1, 2] ↔
        (ringWitnessState.freef x ≠ none ∧ ringWitnessState.freeb x ≠ none))
    ∧ (∀ x y, x ∈ [1, 2] →
        (ringWitnessState.freef x = some y → ringWitnessState.freeb y = some x ∧ y ∈ [1, 2])
        ∧ (ringWitnessState.freeb x = some y →
            ringWitnessState.freef y = some x ∧ y ∈ [1, 2]))
    ∧ ((3 : Nat) ∉ [1, 2] → ringRep (addfree_link ringWitnessState 3) ([1, 2] ++ [3]))
    ∧ ((3 : Nat) ∈ [1, 2] → ∃ l', ringRep (sn_rmfree ringWitnessState 3) l' ∧
        (∀ x, x ∈ l' ↔ x ∈ [1, 2] ∧ x ≠ 3)) :=
  freelist_ring_invariant ringWitnessState [1, 2] 3 ringWitnessState_rep
